import Mathlib

/-!
# yaraft: the unstable entry buffer and the Raft core

A shallow embedding of `src/unstable.h` (the `Unstable` buffer of log entries
that are not yet persisted) and of the parts of the Raft node that
`src/raft_test.cc` exercises, together with theorems about them.

Machine integers are natural numbers; `uint64_t` arithmetic that can wrap is
written with an explicit `% 2^64`.  Operations that can hit a failed assertion
or an out-of-range access return `Except Fault _`.
-/

namespace yaraft

/-! ## Machine arithmetic -/

/-- Number of values of a `uint64_t`. -/
def u64Size : Nat := 2 ^ 64

/-- Subtraction of two `uint64_t` values, wrapping modulo `2^64`. -/
def subU64 (a b : Nat) : Nat := (a % u64Size + u64Size - b % u64Size) % u64Size

/-- Reinterpretation of a `uint64_t` bit pattern as an `int64_t`
(the implicit conversion in `int64_t newSize = ...`). -/
def toInt64 (x : Nat) : Int :=
  if x % u64Size < 2 ^ 63 then ((x % u64Size : Nat) : Int) else ((x % u64Size : Nat) : Int) - 2 ^ 64

/-! ## Entries -/

/-- Kind of a log entry (`pb::EntryType`). -/
inductive EntryType where
  | EntryNormal
  | EntryConfChange
  deriving DecidableEq, Repr

/-- A log entry (`pb::Entry`): index, term, type and payload bytes.  The default
value is what a default-constructed protobuf message holds. -/
structure Entry where
  index : Nat := 0
  term : Nat := 0
  type : EntryType := EntryType.EntryNormal
  data : List Nat := []
  deriving DecidableEq, Repr

instance : Inhabited Entry := ⟨{}⟩

/-- The test helper `pbEntry(index, term)`. -/
def pbEntry (index term : Nat) : Entry := { index := index, term := term }

/-- A vector of entries (`EntryVec`). -/
abbrev EntryVec := List Entry

/-- Ways in which an operation can go wrong instead of returning. -/
inductive Fault where
  /-- a `DLOG_ASSERT` / `LOG_ASSERT` / fatal log condition is violated -/
  | assertion
  /-- a vector is accessed outside its bounds -/
  | outOfRange
  /-- an empty `boost::optional` is dereferenced -/
  | emptyOptional
  /-- `std::length_error`: a vector is asked to grow beyond `max_size()` -/
  | lengthError
  deriving DecidableEq, Repr

deriving instance DecidableEq for Except

/-- A bound on `std::vector<pb::Entry>::max_size()`, which is at most
`PTRDIFF_MAX / sizeof(pb::Entry)`: an entry holds at least its 64-bit index and
its 64-bit term, 16 bytes. -/
def vectorMaxSize : Nat := (2 ^ 63 - 1) / 16

/-- The effect of `std::vector::resize(n)`: keep the first `n` elements, and
pad with default-constructed elements when `n` exceeds the current size; a
request to grow beyond `max_size()` throws `std::length_error` before the
vector is changed. -/
def resize (es : EntryVec) (n : Nat) : Except Fault EntryVec :=
  if es.length < n ∧ vectorMaxSize < n then .error .lengthError
  else .ok (es.take n ++ List.replicate (n - es.length) default)

/-- The size that `TruncateAndAppend` passes to `resize`:
`int64_t newSize = begin->index() - FirstIndex(); if (newSize < 0) newSize = 0;`
followed by `static_cast<size_t>(newSize)`. -/
def truncSize (batchFirst first : Nat) : Nat :=
  (if toInt64 (subU64 batchFirst first) < 0 then (0 : Int)
    else toInt64 (subU64 batchFirst first)).toNat

/-! ## Unstable (`src/unstable.h`) -/

/-- The buffer of entries not yet persisted (`struct Unstable`). -/
structure Unstable where
  entries : EntryVec := []
  deriving DecidableEq, Repr

namespace Unstable

/-- `Unstable::Empty`. -/
def Empty (u : Unstable) : Bool := u.entries.isEmpty

/-- `Unstable::FirstIndex`: the index of the first stored entry; asserts that
the buffer is not empty. -/
def FirstIndex (u : Unstable) : Except Fault Nat :=
  match u.entries.head? with
  | none => .error .assertion
  | some e => .ok e.index

/-- `Unstable::LastIndex`: the index of the last stored entry; asserts that the
buffer is not empty. -/
def LastIndex (u : Unstable) : Except Fault Nat :=
  match u.entries.getLast? with
  | none => .error .assertion
  | some e => .ok e.index

/-- `Unstable::MaybeTerm`: the term stored at position `index - FirstIndex()`
when the buffer is non-empty and `FirstIndex() <= index <= LastIndex()`,
otherwise none. -/
def MaybeTerm (u : Unstable) (index : Nat) : Except Fault (Option Nat) :=
  if !u.entries.isEmpty then
    match u.FirstIndex, u.LastIndex with
    | .ok first, .ok last =>
      if index ≥ first && index ≤ last then
        match u.entries.get? (subU64 index first) with
        | some e => .ok (some e.term)
        | none => .error .outOfRange
      else .ok none
    | .error f, _ => .error f
    | _, .error f => .error f
  else .ok none

/-- `Unstable::StableTo`: the body is empty. -/
def StableTo (u : Unstable) (_i _t : Nat) : Unstable := u

/-- `Unstable::TruncateAndAppend` on the batch `[begin, end)`. -/
def TruncateAndAppend (u : Unstable) (batch : EntryVec) : Except Fault Unstable :=
  match batch with
  | [] => .error .assertion
  | b :: _ =>
    if u.entries.isEmpty then .ok { entries := u.entries ++ batch }
    else
      match u.LastIndex, u.FirstIndex with
      | .ok last, .ok first =>
        if b.index ≤ last then
          let newSize : Int := toInt64 (subU64 b.index first)
          let newSize : Int := if newSize < 0 then 0 else newSize
          match resize u.entries newSize.toNat with
          | .error f => .error f
          | .ok es => .ok { entries := es ++ batch }
        else .ok { entries := u.entries ++ batch }
      | .error f, _ => .error f
      | _, .error f => .error f

/-- `Unstable::Entries`: the entries from position
`max(lo, FirstIndex()) - FirstIndex()` to the end; `hi` and `maxSize` are not
read. -/
def Entries (u : Unstable) (lo _hi _maxSize : Nat) : Except Fault EntryVec :=
  match u.FirstIndex with
  | .ok first =>
    let pos := subU64 (max lo first) first
    if pos ≤ u.entries.length then .ok (u.entries.drop pos) else .error .outOfRange
  | .error f => .error f

end Unstable

/-! ## Status (`include/status.h`) -/

/-- The error codes `Error::ErrorCodes`; `ErrorCodesNum`, the number of codes,
is not a code. -/
inductive ErrorCodes where
  | OK
  | OutOfBound
  | InvalidConfig
  | LogCompacted
  deriving DecidableEq, Repr

/-- `Error::toString`. -/
def ErrorCodes.toString : ErrorCodes → String
  | .OK => "OK"
  | .OutOfBound => "OutOfBound"
  | .InvalidConfig => "InvalidConfig"
  | .LogCompacted => "LogCompacted"

/-- Modelled from the spec: the class template `silly::Status` of the library
header `silly/status.h`, which is not among the sources: a status is an error
code (section 7 lists the kinds) with an optional reason, and it is OK exactly
when its code is `OK`. -/
structure Status where
  code : ErrorCodes := ErrorCodes.OK
  reason : Option String := none
  deriving DecidableEq, Repr

namespace Status

/-- Modelled from the spec: `Status::OK()` of the missing library header. -/
def OK : Status := {}

/-- Modelled from the spec: `Status::Make(code, reason)` of the missing library
header; a null reason is `none`. -/
def Make (code : ErrorCodes) (reason : Option String) : Status :=
  { code := code, reason := reason }

/-- Modelled from the spec: `Status::IsOK()` of the missing library header. -/
def IsOK (s : Status) : Bool := decide (s.code = ErrorCodes.OK)

end Status

/-- The class template `StatusWith<T>`: a status and an optional value. -/
structure StatusWith (T : Type) where
  status_ : Status
  value_ : Option T

namespace StatusWith

/-- The constructor `StatusWith(T value)`, "for ok case". -/
def ofValue {T : Type} (value : T) : StatusWith T :=
  { status_ := Status.OK, value_ := some value }

/-- The constructor `StatusWith(Status status)`, "for error case"; the value is
left empty. -/
def ofStatus {T : Type} (status : Status) : StatusWith T :=
  { status_ := status, value_ := none }

/-- The constructor `StatusWith(Error::ErrorCodes code, const silly::Slice& reason)`. -/
def ofCodeReason {T : Type} (code : ErrorCodes) (reason : String) : StatusWith T :=
  ofStatus (Status.Make code (some reason))

/-- The constructor `StatusWith(Error::ErrorCodes code)`. -/
def ofCode {T : Type} (code : ErrorCodes) : StatusWith T :=
  ofStatus (Status.Make code none)

/-- `StatusWith::GetValue`: asserts `status_.IsOK()` and dereferences the
optional. -/
def GetValue {T : Type} (sw : StatusWith T) : Except Fault T :=
  if sw.status_.IsOK then
    match sw.value_ with
    | some v => .ok v
    | none => .error .emptyOptional
  else .error .assertion

/-- `StatusWith::GetStatus`. -/
def GetStatus {T : Type} (sw : StatusWith T) : Status := sw.status_

/-- `StatusWith::OK`. -/
def OK {T : Type} (sw : StatusWith T) : Bool := sw.status_.IsOK

end StatusWith

/-- The values of `StatusWith<T>` that its four constructors build. -/
inductive StatusWith.Built {T : Type} : StatusWith T → Prop
  | value (v : T) : Built (StatusWith.ofValue v)
  | status (s : Status) : Built (StatusWith.ofStatus s)
  | codeReason (code : ErrorCodes) (reason : String) : Built (StatusWith.ofCodeReason code reason)
  | code (code : ErrorCodes) : Built (StatusWith.ofCode code)

/-- The values of `StatusWith<T>` built the way the comments on the constructors
say: from a value for the ok case, from a status or a code that is not OK for
the error case. -/
inductive StatusWith.BuiltAsDocumented {T : Type} : StatusWith T → Prop
  | value (v : T) : BuiltAsDocumented (StatusWith.ofValue v)
  | status (s : Status) : s.IsOK = false → BuiltAsDocumented (StatusWith.ofStatus s)
  | codeReason (code : ErrorCodes) (reason : String) : code ≠ ErrorCodes.OK →
      BuiltAsDocumented (StatusWith.ofCodeReason code reason)
  | code (code : ErrorCodes) : code ≠ ErrorCodes.OK → BuiltAsDocumented (StatusWith.ofCode code)

/-! ## Properties of entry sequences used in the statements -/

/-- The indices of `es` are contiguous: the `k`-th entry has the index of the
first entry plus `k`. -/
def Contiguous (es : EntryVec) : Prop :=
  ∀ k, k < es.length → (es.getD k default).index = (es.headD default).index + k

instance (es : EntryVec) : Decidable (Contiguous es) := by
  unfold Contiguous; infer_instance

/-- Every index of `es` is below `2^63`. -/
def IndicesBelow63 (es : EntryVec) : Prop := ∀ e ∈ es, e.index < 2 ^ 63

instance (es : EntryVec) : Decidable (IndicesBelow63 es) := by
  unfold IndicesBelow63; infer_instance

/-- Every index of `es` is a `uint64_t` value. -/
def IndicesU64 (es : EntryVec) : Prop := ∀ e ∈ es, e.index < u64Size

instance (es : EntryVec) : Decidable (IndicesU64 es) := by
  unfold IndicesU64; infer_instance

/-- Entries whose indices count up from `f`. -/
def chainFrom (f : Nat) : EntryVec → Prop
  | [] => True
  | e :: es => e.index = f ∧ chainFrom (f + 1) es

/-- Buffers reachable from the empty buffer by `TruncateAndAppend` calls, each
with a non-empty batch whose own indices are contiguous. -/
inductive Reachable : Unstable → Prop
  | empty : Reachable {}
  | append {u u' : Unstable} (batch : EntryVec) : Reachable u → batch ≠ [] →
      Contiguous batch → u.TruncateAndAppend batch = .ok u' → Reachable u'

/-- The batch is adjacent to the buffer: the buffer is empty, or the first
index of the batch is at most `LastIndex() + 1`. -/
def Adjacent (u : Unstable) (batch : EntryVec) : Prop :=
  u.entries = [] ∨
    ∃ b last, batch.head? = some b ∧ u.LastIndex = .ok last ∧ b.index ≤ last + 1

/-- Buffers reachable from the empty buffer by `TruncateAndAppend` calls, each
with a non-empty batch that has contiguous indices below `2^63` and is adjacent
to the buffer it is appended to. -/
inductive ReachableAdjacent : Unstable → Prop
  | empty : ReachableAdjacent {}
  | append {u u' : Unstable} (batch : EntryVec) : ReachableAdjacent u → batch ≠ [] →
      Contiguous batch → IndicesBelow63 batch → Adjacent u batch →
      u.TruncateAndAppend batch = .ok u' → ReachableAdjacent u'

/-! ## The Raft core

The header `raft.h` and its collaborators (`raft_log.h`, `memory_storage.h`,
`progress.h`) are exercised by `src/raft_test.cc` but are not part of the
sources at hand.  The definitions of this section follow the specification of
these components; names follow `raft_test.cc`. -/

/-- Modelled from the spec: the message kinds of the missing protobuf
declarations (section 3, Message). -/
inductive MessageType where
  | MsgHup | MsgBeat | MsgProp | MsgApp | MsgAppResp | MsgVote | MsgVoteResp
  | MsgPreVote | MsgPreVoteResp | MsgHeartbeat | MsgHeartbeatResp | MsgSnap | MsgSnapStatus
  deriving DecidableEq, Repr

/-- Modelled from the spec: the missing protobuf message `pb::Message` with the
fields of section 3, `{type, from, to, term, log_term, index, entries[],
commit, reject, reject_hint}`. -/
structure Message where
  type : MessageType := MessageType.MsgHup
  From : Nat := 0
  To : Nat := 0
  term : Nat := 0
  logTerm : Nat := 0
  index : Nat := 0
  entries : EntryVec := []
  commit : Nat := 0
  reject : Bool := false
  rejectHint : Nat := 0
  deriving DecidableEq, Repr

/-- Modelled from the spec: the error results of the Storage read contract
(section 4.1), which `memory_storage.h` would declare. -/
inductive StorageError where
  | ErrCompacted
  | ErrUnavailable
  deriving DecidableEq, Repr

/-- Modelled from the spec: the missing `MemoryStorage` (section 4.1): the
persisted entries that follow a snapshot, with
`first_index = snapshot_last_index + 1`. -/
structure MemoryStorage where
  snapshotIndex : Nat := 0
  snapshotTerm : Nat := 0
  entries : EntryVec := []
  deriving DecidableEq, Repr

namespace MemoryStorage

/-- Modelled from the spec: the missing `MemoryStorage::FirstIndex`,
`first_index = snapshot_last_index + 1` (section 4.1). -/
def FirstIndex (s : MemoryStorage) : Nat := s.snapshotIndex + 1

/-- Modelled from the spec: the missing `MemoryStorage::LastIndex` (section
4.1): the index of the last persisted entry. -/
def LastIndex (s : MemoryStorage) : Nat := s.snapshotIndex + s.entries.length

/-- Modelled from the spec: the missing `MemoryStorage::Term` (section 4.1),
`term(i) → term | ErrCompacted | ErrUnavailable`; the index before the first one
carries the term of the snapshot. -/
def Term (s : MemoryStorage) (i : Nat) : Except StorageError Nat :=
  if i < s.snapshotIndex then .error .ErrCompacted
  else if i = s.snapshotIndex then .ok s.snapshotTerm
  else
    match s.entries.get? (i - s.FirstIndex) with
    | some e => .ok e.term
    | none => .error .ErrUnavailable

end MemoryStorage

/-- Modelled from the spec: the missing `RaftLog` of `raft_log.h` (section 3),
the composition of the persisted prefix and the unstable suffix. -/
structure RaftLog where
  storage : MemoryStorage := {}
  unstable : Unstable := {}
  committed : Nat := 0
  applied : Nat := 0
  deriving DecidableEq, Repr

namespace RaftLog

/-- Modelled from the spec: the missing `RaftLog::CommitIndex`. -/
def CommitIndex (l : RaftLog) : Nat := l.committed

/-- Modelled from the spec: the missing `RaftLog::LastIndex` (section 4.3),
`unstable.last_index` if the unstable buffer is non-empty, else
`storage.last_index`. -/
def LastIndex (l : RaftLog) : Nat :=
  match l.unstable.LastIndex with
  | .ok last => last
  | .error _ => l.storage.LastIndex

/-- Modelled from the spec: the missing `RaftLog::Term` (section 4.3),
unstable first, else storage; `ErrCompacted` if `i < storage.first_index − 1`. -/
def Term (l : RaftLog) (i : Nat) : Except Fault (Except StorageError Nat) :=
  if i < l.storage.FirstIndex - 1 then .ok (.error .ErrCompacted)
  else
    match l.unstable.MaybeTerm i with
    | .error f => .error f
    | .ok (some t) => .ok (.ok t)
    | .ok none => .ok (l.storage.Term i)

/-- Modelled from the spec: the missing `RaftLog::MatchTerm` (section 4.3),
`term(i) == t`. -/
def MatchTerm (l : RaftLog) (i t : Nat) : Except Fault Bool :=
  match l.Term i with
  | .error f => .error f
  | .ok r => .ok (decide (r = .ok t))

/-- Modelled from the spec: the missing `RaftLog::FindConflict` (section 4.3):
the index of the first entry whose term disagrees with the log or whose index
exceeds the last index; 0 if there is none. -/
def FindConflict (l : RaftLog) : EntryVec → Except Fault Nat
  | [] => .ok 0
  | e :: rest =>
    match l.MatchTerm e.index e.term with
    | .error f => .error f
    | .ok m => if !m || decide (l.LastIndex < e.index) then .ok e.index else FindConflict l rest

/-- Modelled from the spec: the missing `RaftLog::CommitTo` (section 4.3):
advances committed to `c` iff `c > committed` and `c ≤ last_index`, and fails
loudly when `c` is beyond the last index.  A call with `c ≤ committed` leaves
the log as it is: the first row of `TestHandleHeartbeat` ("do not decrease
commit") calls it that way through `handleHeartbeat` and expects the commit
index to stay. -/
def CommitTo (l : RaftLog) (c : Nat) : Except Fault RaftLog :=
  if l.committed < c then
    if c ≤ l.LastIndex then .ok { l with committed := c } else .error .assertion
  else .ok l

/-- Modelled from the spec: the missing `RaftLog::LastTerm`, the term at the
last index (`log.last_term` of section 4.3); a storage error there is a failed
assertion. -/
def LastTerm (l : RaftLog) : Except Fault Nat :=
  match l.Term l.LastIndex with
  | .error f => .error f
  | .ok (.ok t) => .ok t
  | .ok (.error _) => .error .assertion

/-- Modelled from the spec: the missing `RaftLog::IsUpToDate` (section 4.3):
true iff `cand_last_term > log.last_term`, or the terms are equal and
`cand_last_index ≥ log.last_index`. -/
def IsUpToDate (l : RaftLog) (candLastIndex candLastTerm : Nat) : Except Fault Bool :=
  match l.LastTerm with
  | .error f => .error f
  | .ok lastTerm =>
    .ok (decide (lastTerm < candLastTerm ∨
      (candLastTerm = lastTerm ∧ l.LastIndex ≤ candLastIndex)))

/-- Modelled from the spec: the missing `RaftLog::MaybeAppend` (section 4.3,
steps 1 to 4); the result is the new log and the optional last new index. -/
def MaybeAppend (l : RaftLog) (prevIndex prevTerm leaderCommit : Nat) (ents : EntryVec) :
    Except Fault (RaftLog × Option Nat) :=
  match l.MatchTerm prevIndex prevTerm with
  | .error f => .error f
  | .ok false => .ok (l, none)
  | .ok true =>
    match l.FindConflict ents with
    | .error f => .error f
    | .ok ci =>
      let appended : Except Fault RaftLog :=
        if ci = 0 then .ok l
        else
          match l.unstable.TruncateAndAppend (ents.drop (ci - prevIndex - 1)) with
          | .error f => .error f
          | .ok u => .ok { l with unstable := u }
      match appended with
      | .error f => .error f
      | .ok l1 =>
        .ok ({ l1 with committed := max l1.committed (min leaderCommit (prevIndex + ents.length)) },
             some (prevIndex + ents.length))

end RaftLog

/-- Modelled from the spec: the missing `Progress` of `progress.h` (section
4.4), simplified to the match and next indices. -/
structure Progress where
  matchIndex : Nat := 0
  nextIndex : Nat := 0
  deriving DecidableEq, Repr

/-- Modelled from the spec: the missing `Raft::StateRole` (section 4.5.1). -/
inductive StateRole where
  | kFollower | kPreCandidate | kCandidate | kLeader
  deriving DecidableEq, Repr

/-- Modelled from the spec: the missing `class Raft` of `raft.h` (section 3);
the progress map is an association list from peer id to `Progress`, the
mailbox a list in FIFO order. -/
structure Raft where
  id : Nat := 0
  peers : List Nat := []
  currentTerm : Nat := 0
  votedFor : Nat := 0
  role : StateRole := StateRole.kFollower
  currentLeader : Nat := 0
  log : RaftLog := {}
  prs : List (Nat × Progress) := []
  votes : List (Nat × Bool) := []
  electionElapsed : Nat := 0
  heartbeatElapsed : Nat := 0
  electionTimeout : Nat := 0
  randomizedElectionTimeout : Nat := 0
  heartbeatTimeout : Nat := 0
  preVote : Bool := false
  checkQuorum : Bool := false
  mails : List Message := []
  deriving DecidableEq, Repr

namespace Raft

/-- Modelled from the spec: the missing `Raft::send`, which appends a message
to the mailbox (section 4.6). -/
def send (r : Raft) (m : Message) : Raft := { r with mails := r.mails ++ [m] }

/-- Modelled from the spec: the match indices of the progress map, sorted in
descending order (section 4.5.8); part of the missing
`Raft::advanceCommitIndex`. -/
def sortedMatches (r : Raft) : List Nat :=
  (r.prs.map (fun p => p.2.matchIndex)).insertionSort (fun a b => b ≤ a)

/-- Modelled from the spec: the quorum index `mci = M[⌊N/2⌋]` of the missing
`Raft::advanceCommitIndex` (section 4.5.8). -/
def quorumIndex (r : Raft) : Except Fault Nat :=
  match r.sortedMatches.get? (r.prs.length / 2) with
  | some mci => .ok mci
  | none => .error .outOfRange

/-- Modelled from the spec: the number of peers in the progress map whose match
index is at least `i`. -/
def replicatedOn (r : Raft) (i : Nat) : Nat :=
  (r.prs.filter (fun p => decide (i ≤ p.2.matchIndex))).length

/-- Modelled from the spec: the missing `Raft::advanceCommitIndex` (section
4.5.8): if `mci > committed` and `log.term(mci) == current_term`, then
`log.commit_to(mci)`. -/
def advanceCommitIndex (r : Raft) : Except Fault Raft :=
  match r.quorumIndex with
  | .error f => .error f
  | .ok mci =>
    if r.log.committed < mci then
      match r.log.Term mci with
      | .error f => .error f
      | .ok t =>
        if t = .ok r.currentTerm then
          match r.log.CommitTo mci with
          | .error f => .error f
          | .ok l => .ok { r with log := l }
        else .ok r
    else .ok r

/-- Modelled from the spec: the missing `Raft::handleAppendEntries` (section
4.5.5, `App`). -/
def handleAppendEntries (r : Raft) (m : Message) : Except Fault Raft :=
  let replied : Except Fault Raft :=
    if m.index < r.log.committed then
      .ok (r.send { type := .MsgAppResp, From := r.id, To := m.From, term := r.currentTerm,
                    index := r.log.committed, reject := false })
    else
      match r.log.MaybeAppend m.index m.logTerm m.commit m.entries with
      | .error f => .error f
      | .ok (l, some lastNewIndex) =>
        .ok ({ r with log := l }.send
          { type := .MsgAppResp, From := r.id, To := m.From, term := r.currentTerm,
            index := lastNewIndex, reject := false })
      | .ok (_, none) =>
        .ok (r.send { type := .MsgAppResp, From := r.id, To := m.From, term := r.currentTerm,
                      index := m.index, reject := true, rejectHint := r.log.LastIndex })
  match replied with
  | .error f => .error f
  | .ok r1 => .ok { r1 with electionElapsed := 0, currentLeader := m.From }

/-- Modelled from the spec: the missing `Raft::becomeFollower` (section 4.5.1):
sets the term (clearing the vote if the term advances), the leader and the
role, and resets the election timer. -/
def becomeFollower (r : Raft) (term leader : Nat) : Raft :=
  { r with
    currentTerm := term
    votedFor := if r.currentTerm < term then 0 else r.votedFor
    currentLeader := leader
    role := StateRole.kFollower
    electionElapsed := 0 }

/-- Modelled from the spec: the missing `Raft::Step` (section 4.5.3).  The
per-role handler, the hook `step_` that `TestStepIgnoreOldTermMsg` replaces, is
the argument `step`. -/
def Step (step : Raft → Message → Except Fault Raft) (r : Raft) (m : Message) :
    Except Fault Raft :=
  if m.term = 0 then step r m
  else if r.currentTerm < m.term then
    if m.type = .MsgVote ∨ m.type = .MsgPreVote then
      if m.type = .MsgPreVote then step r m
      else step (r.becomeFollower m.term 0) m
    else
      let leader :=
        if m.type = .MsgApp ∨ m.type = .MsgHeartbeat ∨ m.type = .MsgSnap then m.From else 0
      step (r.becomeFollower m.term leader) m
  else if m.term < r.currentTerm then
    if m.type = .MsgApp ∨ m.type = .MsgHeartbeat then
      .ok (r.send { type := .MsgAppResp, From := r.id, To := m.From, term := r.currentTerm })
    else .ok r
  else step r m

/-- Modelled from the spec: the missing `Raft::becomePreCandidate` (section
4.5.1): illegal from Candidate and Leader; does not bump the term or record a
vote, sets the role and initialises the votes. -/
def becomePreCandidate (r : Raft) : Except Fault Raft :=
  if r.role = StateRole.kCandidate ∨ r.role = StateRole.kLeader then .error .assertion
  else .ok { r with role := StateRole.kPreCandidate, votes := [] }

/-- Modelled from the spec: the missing `Raft::becomeCandidate` (section 4.5.1):
illegal from Leader; `current_term += 1`, `voted_for = self`,
`role = Candidate`, resets the votes. -/
def becomeCandidate (r : Raft) : Except Fault Raft :=
  if r.role = StateRole.kLeader then .error .assertion
  else
    .ok { r with
      currentTerm := r.currentTerm + 1
      votedFor := r.id
      role := StateRole.kCandidate
      votes := [] }

/-- Modelled from the spec: the missing `Raft::becomeLeader` (section 4.5.1 and
its table): illegal from Follower.  From Leader it is the self-transition of
the design notes, which neither increments the term nor re-initialises the
progress map nor appends; `TestStateTransition` expects the leader to be the
node itself afterwards.  From the other roles it sets the role and the leader,
initialises `progress_map[p] = {match=0, next=log.last_index+1}` for each peer
(the own match index is the last index) and appends an empty entry at the
current term. -/
def becomeLeader (r : Raft) : Except Fault Raft :=
  if r.role = StateRole.kFollower then .error .assertion
  else if r.role = StateRole.kLeader then .ok { r with currentLeader := r.id }
  else
    let last := r.log.LastIndex
    match r.log.unstable.TruncateAndAppend [{ index := last + 1, term := r.currentTerm }] with
    | .error f => .error f
    | .ok u =>
      .ok { r with
        role := StateRole.kLeader
        currentLeader := r.id
        prs := r.peers.map (fun p =>
          (p, { matchIndex := if p = r.id then last else 0, nextIndex := last + 1 }))
        log := { r.log with unstable := u } }

/-- Modelled from the spec: the missing `Raft::handleHeartbeat` (section 4.5.5,
`Heartbeat`): `log.commit_to(min(m.commit, log.last_index))`, reply
`HeartbeatResp`, reset the election timer. -/
def handleHeartbeat (r : Raft) (m : Message) : Except Fault Raft :=
  match r.log.CommitTo (min m.commit r.log.LastIndex) with
  | .error f => .error f
  | .ok l =>
    .ok { ({ r with log := l }.send
        { type := .MsgHeartbeatResp, From := r.id, To := m.From, term := r.currentTerm })
      with electionElapsed := 0 }

/-- Modelled from the spec: the vote decision of the missing `raft.h` (section
4.5.4) for `Vote` and `PreVote`: grant iff the log of the candidate is up to
date and, for `Vote`, `voted_for ∈ {none, m.from}`, for `PreVote`, no vote is
recorded; on grant reply with `reject=false` and, for `Vote`, record the vote
and reset the election timer; otherwise reply with `reject=true`.  The peer id
0 stands for none. -/
def handleVote (r : Raft) (m : Message) : Except Fault Raft :=
  match r.log.IsUpToDate m.index m.logTerm with
  | .error f => .error f
  | .ok upToDate =>
    let respType : MessageType :=
      if m.type = .MsgPreVote then .MsgPreVoteResp else .MsgVoteResp
    let canVote : Bool :=
      if m.type = .MsgPreVote then decide (r.votedFor = 0)
      else decide (r.votedFor = 0 ∨ r.votedFor = m.From)
    if upToDate && canVote then
      let r1 := r.send
        { type := respType, From := r.id, To := m.From, term := r.currentTerm, reject := false }
      if m.type = .MsgVote then .ok { r1 with votedFor := m.From, electionElapsed := 0 }
      else .ok r1
    else
      .ok (r.send
        { type := respType, From := r.id, To := m.From, term := r.currentTerm, reject := true })

/-- Modelled from the spec: the handler that `Step` dispatches to once the term
checks are done, the default value of the hook `step_` of the missing `raft.h`:
the vote decision of section 4.5.4 for `Vote` and `PreVote`, where a leader
ignores a `Vote` (section 4.5.7), and the behaviour of the role, `roleStep`
(sections 4.5.5 to 4.5.7), for every other kind of message. -/
def dispatch (roleStep : Raft → Message → Except Fault Raft) (r : Raft) (m : Message) :
    Except Fault Raft :=
  if m.type = .MsgVote ∨ m.type = .MsgPreVote then
    if m.type = .MsgVote ∧ r.role = StateRole.kLeader then .ok r else r.handleVote m
  else roleStep r m

end Raft

/-- The log invariants of the data model that the commit rule relies on: the
unstable indices are contiguous, and a non-empty unstable buffer starts after
the last persisted index. -/
def RaftLog.WellFormed (l : RaftLog) : Prop :=
  Contiguous l.unstable.entries ∧
    match l.unstable.FirstIndex with
    | .ok first => l.storage.LastIndex + 1 ≤ first
    | .error _ => True

instance (l : RaftLog) : Decidable l.WellFormed := by
  unfold RaftLog.WellFormed
  cases l.unstable.FirstIndex <;> infer_instance

/-- The entries of an append message follow its previous index: the `k`-th
entry has index `prevIndex + 1 + k`. -/
def FollowsPrev (prevIndex : Nat) (ents : EntryVec) : Prop :=
  ∀ k, k < ents.length → (ents.getD k default).index = prevIndex + 1 + k

instance (prevIndex : Nat) (ents : EntryVec) : Decidable (FollowsPrev prevIndex ents) := by
  unfold FollowsPrev; infer_instance

/-- The state of `TestCommit`: a leader at term `smTerm` over the persisted
entries `logs`, with peer `i + 1` at match index `matches[i]`. -/
def commitTestRaft (mis : List Nat) (logs : EntryVec) (smTerm : Nat) : Raft :=
  { id := 1, peers := [1], currentTerm := smTerm, role := StateRole.kLeader,
    log := { storage := { entries := logs } },
    prs := mis.enum.map (fun p => (p.1 + 1, { matchIndex := p.2, nextIndex := p.2 + 1 })),
    electionTimeout := 5, heartbeatTimeout := 1 }

/-- The state of `TestHandleMsgApp`: a follower at term 2 over the persisted
entries `(1,1), (2,2)`. -/
def msgAppTestRaft : Raft :=
  { id := 1, peers := [1], currentTerm := 2, role := StateRole.kFollower,
    log := { storage := { entries := [pbEntry 1 1, pbEntry 2 2] } },
    electionTimeout := 10, heartbeatTimeout := 1 }

/-- The rows of `TestHandleMsgApp`: previous index and term, leader commit,
entries, and the expected last index, commit index and reject flag. -/
def handleMsgAppRows : List (Nat × Nat × Nat × EntryVec × Nat × Nat × Bool) :=
  [ (3, 2, 3, [], 2, 0, true),
    (3, 3, 3, [], 2, 0, true),
    (1, 1, 1, [], 2, 1, false),
    (0, 0, 1, [pbEntry 1 2], 1, 1, false),
    (2, 2, 3, [pbEntry 3 2, pbEntry 4 2], 4, 3, false),
    (2, 2, 4, [pbEntry 3 2], 3, 3, false),
    (1, 1, 4, [pbEntry 2 2], 2, 2, false),
    (1, 1, 3, [], 2, 1, false),
    (1, 1, 3, [pbEntry 2 2], 2, 2, false),
    (2, 2, 3, [], 2, 2, false),
    (2, 2, 4, [], 2, 2, false) ]

/-- The body of the loop of `TestHandleMsgApp` on one row: the three values
that the test compares, paired with the expected ones. -/
def handleMsgAppRowPasses (row : Nat × Nat × Nat × EntryVec × Nat × Nat × Bool) : Bool :=
  match msgAppTestRaft.handleAppendEntries
      { type := .MsgApp, term := msgAppTestRaft.currentTerm, logTerm := row.2.1,
        index := row.1, commit := row.2.2.1, entries := row.2.2.2.1 } with
  | .error _ => false
  | .ok r =>
    decide (r.log.LastIndex = row.2.2.2.2.1) && decide (r.log.CommitIndex = row.2.2.2.2.2.1)
      && decide (r.mails.map (fun m => m.reject) = [row.2.2.2.2.2.2])

/-- The rows of `TestCommit`: match indices, persisted log, term of the leader
and the expected commit index. -/
def commitRows : List (List Nat × EntryVec × Nat × Nat) :=
  [ ([1], [pbEntry 1 1], 1, 1),
    ([1], [pbEntry 1 1], 2, 0),
    ([2], [pbEntry 1 1, pbEntry 2 2], 2, 2),
    ([1], [pbEntry 1 2], 2, 1),
    ([2, 1, 1], [pbEntry 1 1, pbEntry 2 1], 1, 1),
    ([2, 1, 1], [pbEntry 1 1, pbEntry 2 1], 2, 0),
    ([2, 1, 2], [pbEntry 1 1, pbEntry 2 2], 2, 2),
    ([2, 1, 2], [pbEntry 1 1, pbEntry 2 1], 2, 0),
    ([2, 1, 1, 1], [pbEntry 1 1, pbEntry 2 2], 1, 1),
    ([2, 1, 1, 1], [pbEntry 1 1, pbEntry 2 1], 2, 0),
    ([2, 1, 1, 2], [pbEntry 1 1, pbEntry 2 2], 1, 1),
    ([2, 1, 1, 2], [pbEntry 1 1, pbEntry 2 1], 2, 0),
    ([2, 1, 2, 2], [pbEntry 1 1, pbEntry 2 2], 2, 2),
    ([2, 1, 2, 2], [pbEntry 1 1, pbEntry 2 1], 2, 0) ]

/-- The body of the loop of `TestCommit` on one row. -/
def commitRowPasses (row : List Nat × EntryVec × Nat × Nat) : Bool :=
  match (commitTestRaft row.1 row.2.1 row.2.2.1).advanceCommitIndex with
  | .error _ => false
  | .ok r => decide (r.log.CommitIndex = row.2.2.2)

/-- The test helper `newTestRaft(id, peers, election, heartbeat, storage)`: a
follower at term 0 over the given storage. -/
def newTestRaft (id : Nat) (peers : List Nat) (election heartbeat : Nat)
    (storage : MemoryStorage) : Raft :=
  { id := id, peers := peers, electionTimeout := election, heartbeatTimeout := heartbeat,
    log := { storage := storage } }

/-- The rows of `TestStateTransition`: the roles `from` and `to`, whether the
transition is allowed, and the expected term and leader. -/
def stateTransitionRows : List (StateRole × StateRole × Bool × Nat × Nat) :=
  [ (.kFollower, .kFollower, true, 1, 0),
    (.kFollower, .kCandidate, true, 1, 0),
    (.kFollower, .kLeader, false, 0, 0),
    (.kCandidate, .kFollower, true, 0, 0),
    (.kCandidate, .kCandidate, true, 1, 0),
    (.kCandidate, .kLeader, true, 0, 1),
    (.kLeader, .kFollower, true, 1, 0),
    (.kLeader, .kCandidate, false, 1, 0),
    (.kLeader, .kLeader, true, 0, 1) ]

/-- The call that the loop of `TestStateTransition` makes on one row. -/
def stateTransitionCall (row : StateRole × StateRole × Bool × Nat × Nat) : Except Fault Raft :=
  let r : Raft := { newTestRaft 1 [1] 10 1 {} with role := row.1 }
  match row.2.1 with
  | .kFollower => .ok (r.becomeFollower row.2.2.2.1 row.2.2.2.2)
  | .kCandidate => r.becomeCandidate
  | .kLeader => r.becomeLeader
  | .kPreCandidate => .ok r

/-- The body of the loop of `TestStateTransition` on one row. -/
def stateTransitionRowPasses (row : StateRole × StateRole × Bool × Nat × Nat) : Bool :=
  match stateTransitionCall row with
  | .error _ => !row.2.2.1
  | .ok r =>
    row.2.2.1 && decide (r.currentTerm = row.2.2.2.1) && decide (r.currentLeader = row.2.2.2.2)

/-- The state of `TestHandleHeartbeat` before the heartbeat: a follower at term
2 over three persisted entries, committed up to `commit = 2`. -/
def heartbeatTestRaft : Except Fault Raft :=
  let r := (newTestRaft 1 [1, 2] 10 1
    { entries := [pbEntry 1 1, pbEntry 2 2, pbEntry 3 3] }).becomeFollower 2 0
  match r.log.CommitTo 2 with
  | .error f => .error f
  | .ok l => .ok { r with log := l }

/-- The rows of `TestHandleHeartbeat`: the commit index of the message and the
expected commit index. -/
def heartbeatRows : List (Nat × Nat) := [(2 - 1, 2), (2 + 1, 2 + 1)]

/-- The body of the loop of `TestHandleHeartbeat` on one row. -/
def heartbeatRowPasses (row : Nat × Nat) : Bool :=
  match heartbeatTestRaft with
  | .error _ => false
  | .ok r =>
    match r.handleHeartbeat
        { type := .MsgHeartbeat, From := 2, To := 1, term := 2, commit := row.1 } with
    | .error _ => false
    | .ok r' => decide (r'.log.CommitIndex = row.2)

/-- The state that `TestVoteFromAnyState` builds for a starting role. -/
def voteTestRaft (role : StateRole) : Except Fault Raft :=
  let r := newTestRaft 1 [1, 2, 3] 10 1 {}
  match role with
  | .kFollower => .ok (r.becomeFollower 1 3)
  | .kCandidate => r.becomeCandidate
  | .kLeader =>
    match r.becomeCandidate with
    | .error f => .error f
    | .ok c => c.becomeLeader
  | .kPreCandidate => (r.becomeFollower 1 3).becomePreCandidate

/-- The body of the loop of `TestVoteFromAnyState` for one starting role, with
the per-role handler `roleStep` for the kinds of message other than votes. -/
def voteFromRolePasses (roleStep : Raft → Message → Except Fault Raft) (role : StateRole) :
    Bool :=
  match voteTestRaft role with
  | .error _ => false
  | .ok r =>
    decide (r.currentTerm = 1) &&
    match Raft.Step (Raft.dispatch roleStep) r
        { type := .MsgVote, From := 2, To := 1, term := 2, logTerm := 2, index := 4 } with
    | .error _ => false
    | .ok r' =>
      decide (r'.mails.map (fun m => (m.type, m.reject)) = [(MessageType.MsgVoteResp, false)])
        && decide (r'.votedFor = 2) && decide (r'.currentTerm = 2)
        && decide (r'.role = StateRole.kFollower)

/-- The state of the scenario Commit-3of5: a leader at term 2 with commit 0 in a
cluster of five whose match indices are 3, 3, 2, 2, 1, over three persisted
entries with terms `t1`, `t2` and 2. -/
def commit3of5Raft (t1 t2 : Nat) : Raft :=
  commitTestRaft [3, 3, 2, 2, 1] [pbEntry 1 t1, pbEntry 2 t2, pbEntry 3 2] 2

/-- A leader at term 1 in a cluster of three, over an empty log. -/
def voteWitnessRaft : Raft :=
  { newTestRaft 1 [1, 2, 3] 10 1 {} with role := StateRole.kLeader, currentTerm := 1 }

/-- A follower at term 2 over three persisted entries, committed up to 2. -/
def heartbeatWitnessRaft : Raft :=
  { id := 1, currentTerm := 2,
    log := { storage := { entries := [pbEntry 1 1, pbEntry 2 2, pbEntry 3 3] },
             committed := 2 } }

/-- A follower at term 2 with an empty storage whose unstable buffer holds the
one entry with index `2^63 + 5`. -/
def wrapAppendRaft : Raft :=
  { id := 1, peers := [1], currentTerm := 2, role := StateRole.kFollower,
    log := { unstable := { entries := [pbEntry (2 ^ 63 + 5) 1] } } }

/-- A `MsgApp` at term 2 with previous index 0, previous term 0 and the one
entry `(1, 2)`. -/
def wrapAppendMsg : Message :=
  { type := .MsgApp, term := 2, logTerm := 0, index := 0, entries := [pbEntry 1 2] }

/-- A follower at term 2 with an empty storage whose unstable buffer holds the
indices 1 and 5. -/
def gapAppendRaft : Raft :=
  { id := 1, peers := [1], currentTerm := 2, role := StateRole.kFollower,
    log := { unstable := { entries := [pbEntry 1 1, pbEntry 5 1] } } }

/-! ## Theorems -/

/-! ### The test tables -/

/-- Every row of `TestHandleMsgApp` passes on the model. -/
theorem handleMsgAppRows_pass : ∀ row ∈ handleMsgAppRows, handleMsgAppRowPasses row = true := by
  decide

/-- Every row of `TestCommit` passes on the model. -/
theorem commitRows_pass : ∀ row ∈ commitRows, commitRowPasses row = true := by
  decide

/-- Every row of `TestStateTransition` passes on the model. -/
theorem stateTransitionRows_pass :
    ∀ row ∈ stateTransitionRows, stateTransitionRowPasses row = true := by
  decide

/-- Every row of `TestHandleHeartbeat` passes on the model. -/
theorem heartbeatRows_pass : ∀ row ∈ heartbeatRows, heartbeatRowPasses row = true := by
  decide

/-- The loop of `TestVoteFromAnyState` passes on the model for every starting
role, here with a per-role handler that fails on every call. -/
theorem voteFromAnyState_pass :
    ∀ role ∈ [StateRole.kFollower, StateRole.kPreCandidate, StateRole.kCandidate,
      StateRole.kLeader], voteFromRolePasses (fun _ _ => .error .assertion) role = true := by
  decide

/-! ### Unstable -/

theorem truncSize_eq (a b : Nat) (ha : a < 2 ^ 63) (hb : b < 2 ^ 63) :
    (if toInt64 (subU64 a b) < 0 then (0 : Int) else toInt64 (subU64 a b)).toNat = a - b := by
  unfold toInt64 subU64 u64Size
  norm_num at ha hb ⊢
  split_ifs <;> omega

/-- Above `2^63` the signed size is not the difference of the indices: for a
batch at index 1 and a buffer that starts at `2^63 + 2` it is the positive
number `2^63 - 1`. -/
theorem truncSize_wraps : toInt64 (subU64 1 (2 ^ 63 + 2)) = 2 ^ 63 - 1 := by
  decide

theorem subU64_eq (a b : Nat) (ha : a < u64Size) (hb : b ≤ a) : subU64 a b = a - b := by
  unfold subU64
  unfold u64Size at *
  norm_num at ha ⊢
  omega

theorem chainFrom_getD {f : Nat} {es : EntryVec} (h : chainFrom f es) :
    ∀ k, k < es.length → (es.getD k default).index = f + k := by
  induction es generalizing f with
  | nil => intro k hk; simp at hk
  | cons e es ih =>
    intro k hk
    obtain ⟨h1, h2⟩ := h
    cases k with
    | zero => simpa using h1
    | succ k =>
      have := ih h2 k (by simpa using hk)
      simp only [List.getD_cons_succ]
      omega

theorem chainFrom_of_getD {f : Nat} {es : EntryVec}
    (h : ∀ k, k < es.length → (es.getD k default).index = f + k) : chainFrom f es := by
  induction es generalizing f with
  | nil => trivial
  | cons e es ih =>
    refine ⟨by simpa using h 0 (by simp), ih ?_⟩
    intro k hk
    have := h (k + 1) (by simpa using hk)
    simp only [List.getD_cons_succ] at this
    omega

theorem contiguous_cons_iff (e : Entry) (es : EntryVec) :
    Contiguous (e :: es) ↔ chainFrom e.index (e :: es) := by
  constructor
  · intro h; exact chainFrom_of_getD (by simpa [Contiguous] using h)
  · intro h; simpa [Contiguous] using chainFrom_getD h

theorem contiguous_of_chainFrom {f : Nat} {es : EntryVec} (h : chainFrom f es) :
    Contiguous es := by
  cases es with
  | nil => intro k hk; simp at hk
  | cons e es => rw [contiguous_cons_iff]; rw [h.1]; exact h

theorem chainFrom_take_eq_filter {f : Nat} {es : EntryVec} (h : chainFrom f es) (n : Nat) :
    es.take (n - f) = es.filter (fun e => decide (e.index < n)) := by
  induction es generalizing f with
  | nil => simp
  | cons e es ih =>
    obtain ⟨h1, h2⟩ := h
    have ih' := ih h2
    by_cases hn : n ≤ f
    · have h0 : n - f = 0 := by omega
      have h0' : n - (f + 1) = 0 := by omega
      rw [h0'] at ih'
      rw [h0, List.filter_cons_of_neg (by simp; omega), ← ih']
      simp
    · have hs : n - f = (n - (f + 1)) + 1 := by omega
      rw [hs, List.take_succ_cons, List.filter_cons_of_pos (by simp; omega), ih']

theorem chainFrom_append {f : Nat} {xs ys : EntryVec} (hx : chainFrom f xs)
    (hy : chainFrom (f + xs.length) ys) : chainFrom f (xs ++ ys) := by
  induction xs generalizing f with
  | nil => simpa using hy
  | cons e es ih =>
    refine ⟨hx.1, ih hx.2 ?_⟩
    have : f + 1 + es.length = f + (e :: es).length := by simp; omega
    rw [this]; exact hy

theorem chainFrom_take {f : Nat} {xs : EntryVec} (hx : chainFrom f xs) (n : Nat) :
    chainFrom f (xs.take n) := by
  induction xs generalizing f n with
  | nil => simp [chainFrom]
  | cons e es ih =>
    cases n with
    | zero => simp [chainFrom]
    | succ n => exact ⟨hx.1, ih hx.2 n⟩

theorem chainFrom_getLast? {f : Nat} (e : Entry) (es : EntryVec) (h : chainFrom f (e :: es)) :
    ((e :: es).getLast?).map Entry.index = some (f + es.length) := by
  induction es generalizing f e with
  | nil => simp [h.1]
  | cons e' es ih =>
    have := ih e' h.2
    rw [List.getLast?_cons_cons, this]
    simp only [List.length_cons, Option.some.injEq]
    omega

theorem firstIndex_cons (e : Entry) (es : EntryVec) :
    (Unstable.mk (e :: es)).FirstIndex = .ok e.index := rfl

theorem lastIndex_of_chainFrom {f : Nat} (e : Entry) (es : EntryVec)
    (h : chainFrom f (e :: es)) : (Unstable.mk (e :: es)).LastIndex = .ok (f + es.length) := by
  have := chainFrom_getLast? e es h
  unfold Unstable.LastIndex
  cases hl : (e :: es).getLast? with
  | none => simp [hl] at this
  | some l =>
    simp only [hl, Option.map_some', Option.some.injEq] at this
    simp [this]

theorem lastIndex_cons_ok (e : Entry) (es : EntryVec) :
    ∃ last, (Unstable.mk (e :: es)).LastIndex = .ok last := by
  unfold Unstable.LastIndex
  cases hl : (e :: es).getLast? with
  | none => simp at hl
  | some l => exact ⟨l.index, rfl⟩

/-- Normal form of `TruncateAndAppend` on a non-empty buffer when the two
indices that enter the size computation are below `2^63`. -/
theorem truncateAndAppend_cons (e : Entry) (es : EntryVec) (b : Entry) (bs : EntryVec)
    (last : Nat) (hl : (Unstable.mk (e :: es)).LastIndex = .ok last)
    (he : e.index < 2 ^ 63) (hb : b.index < 2 ^ 63) :
    (Unstable.mk (e :: es)).TruncateAndAppend (b :: bs) =
      if b.index ≤ last then
        (resize (e :: es) (b.index - e.index)).map (fun xs => ⟨xs ++ b :: bs⟩)
      else .ok ⟨e :: es ++ b :: bs⟩ := by
  unfold Unstable.TruncateAndAppend
  simp only [List.isEmpty_cons, Bool.false_eq_true, if_false, hl, firstIndex_cons]
  by_cases h : b.index ≤ last
  · simp only [h, if_true]
    rw [truncSize_eq _ _ hb he]
    cases resize (e :: es) (b.index - e.index) <;> rfl
  · simp only [h, if_false]

theorem resize_of_le (es : EntryVec) (n : Nat) (h : n ≤ es.length) :
    resize es n = .ok (es.take n) := by
  unfold resize
  have h0 : n - es.length = 0 := by omega
  rw [if_neg (by omega), h0]
  simp

/-- C1: on a non-empty buffer with contiguous indices and a non-empty batch whose
first index is at most `LastIndex()`, all indices being below `2^63`,
`TruncateAndAppend` returns the old entries whose index is smaller than the
first index of the batch, in their old order, followed by the whole batch; no
old entry at or after the first index of the batch is kept. -/
theorem truncateAndAppend_truncates (u : Unstable) (batch : EntryVec) (b : Entry) (last : Nat)
    (hne : u.entries ≠ []) (hc : Contiguous u.entries)
    (hb : batch.head? = some b) (hl : u.LastIndex = .ok last) (hle : b.index ≤ last)
    (hu63 : IndicesBelow63 u.entries) (hb63 : IndicesBelow63 batch) :
    u.TruncateAndAppend batch
        = .ok ⟨u.entries.filter (fun e => decide (e.index < b.index)) ++ batch⟩
      ∧ (u.entries.filter (fun e => decide (e.index < b.index))).Sublist u.entries
      ∧ (∀ e ∈ u.entries, b.index ≤ e.index →
          e ∉ u.entries.filter (fun e => decide (e.index < b.index))) := by
  refine ⟨?_, List.filter_sublist _, ?_⟩
  · obtain ⟨es⟩ := u
    cases es with
    | nil => exact absurd rfl hne
    | cons e es =>
      cases batch with
      | nil => simp at hb
      | cons b' bs =>
        simp only [List.head?_cons, Option.some.injEq] at hb
        subst hb
        have hch : chainFrom e.index (e :: es) := (contiguous_cons_iff e es).1 hc
        have hl' := lastIndex_of_chainFrom e es hch
        rw [hl'] at hl
        injection hl with hl
        rw [truncateAndAppend_cons e es b' bs _ hl' (hu63 e (by simp)) (hb63 b' (by simp))]
        have hle' : b'.index ≤ e.index + es.length := by omega
        rw [if_pos hle', resize_of_le _ _ (by simp; omega), chainFrom_take_eq_filter hch]
        rfl
  · intro e _ hge hmem
    have := (List.mem_filter.1 hmem).2
    simp at this
    omega

/-- C3: on a buffer with contiguous indices, `MaybeTerm(i)` is none on an empty
buffer; on a non-empty buffer with `FirstIndex() <= i <= LastIndex()` the
position `i - FirstIndex()` is within the vector and the result is the term of
the one entry whose index is `i`; for every other `i` the result is none. -/
theorem maybeTerm_spec (u : Unstable) (i : Nat) (hc : Contiguous u.entries) (hi : i < u64Size) :
    (u.entries = [] → u.MaybeTerm i = .ok none) ∧
    (∀ first last, u.FirstIndex = .ok first → u.LastIndex = .ok last →
      (first ≤ i ∧ i ≤ last →
         i - first < u.entries.length ∧
         ∃ e, u.entries.get? (i - first) = some e ∧ e.index = i ∧
           (∀ x ∈ u.entries, x.index = i → x = e) ∧
           u.MaybeTerm i = .ok (some e.term)) ∧
      (¬ (first ≤ i ∧ i ≤ last) → u.MaybeTerm i = .ok none)) := by
  obtain ⟨es⟩ := u
  cases es with
  | nil =>
    refine ⟨fun _ => rfl, ?_⟩
    intro first last hf
    simp [Unstable.FirstIndex] at hf
  | cons e es =>
    refine ⟨fun h => by simp at h, ?_⟩
    intro first last hf hl
    have hch : chainFrom e.index (e :: es) := (contiguous_cons_iff e es).1 hc
    have hl' := lastIndex_of_chainFrom e es hch
    rw [hl'] at hl
    injection hl with hl
    rw [firstIndex_cons] at hf
    injection hf with hf
    subst hf hl
    constructor
    · rintro ⟨h1, h2⟩
      have hlt : i - e.index < (e :: es).length := by simp; omega
      refine ⟨hlt, (e :: es).get ⟨i - e.index, hlt⟩, List.get?_eq_get hlt, ?_, ?_, ?_⟩
      · have := chainFrom_getD hch (i - e.index) hlt
        rw [List.getD_eq_getElem _ _ hlt] at this
        simp only [List.get_eq_getElem]
        omega
      · intro x hx hxi
        obtain ⟨k, hk, rfl⟩ := List.getElem_of_mem hx
        have := chainFrom_getD hch k hk
        rw [List.getD_eq_getElem _ _ hk] at this
        have hk' : k = i - e.index := by omega
        subst hk'
        rfl
      · unfold Unstable.MaybeTerm
        simp only [List.isEmpty_cons, Bool.not_false, if_true, firstIndex_cons, hl',
          subU64_eq i e.index hi h1, List.get?_eq_get hlt]
        simp [h1, h2]
    · intro hn
      unfold Unstable.MaybeTerm
      simp only [List.isEmpty_cons, Bool.not_false, if_true, firstIndex_cons, hl']
      have : ¬ (i ≥ e.index ∧ i ≤ e.index + es.length) := hn
      simp [this]

/-- C5: on a non-empty buffer with contiguous indices and a non-empty batch whose
first index is smaller than `FirstIndex()`, all indices being below `2^63`, the
buffer after `TruncateAndAppend` is exactly the batch, so `FirstIndex()` is the
first index of the batch and no old entry is left. -/
theorem truncateAndAppend_below_offset (u : Unstable) (batch : EntryVec) (b : Entry)
    (first : Nat) (hb : batch.head? = some b) (hc : Contiguous u.entries)
    (hf : u.FirstIndex = .ok first) (hlt : b.index < first)
    (hu63 : IndicesBelow63 u.entries) (hb63 : IndicesBelow63 batch) :
    u.TruncateAndAppend batch = .ok ⟨batch⟩ ∧
    (Unstable.mk batch).FirstIndex = .ok b.index := by
  obtain ⟨es⟩ := u
  cases es with
  | nil => simp [Unstable.FirstIndex] at hf
  | cons e es =>
    cases batch with
    | nil => simp at hb
    | cons b' bs =>
      simp only [List.head?_cons, Option.some.injEq] at hb
      subst hb
      rw [firstIndex_cons] at hf
      injection hf with hf
      subst hf
      have hch : chainFrom e.index (e :: es) := (contiguous_cons_iff e es).1 hc
      have hl := lastIndex_of_chainFrom e es hch
      refine ⟨?_, rfl⟩
      rw [truncateAndAppend_cons e es b' bs _ hl (hu63 e (by simp)) (hb63 b' (by simp)),
        if_pos (by omega)]
      have h0 : b'.index - e.index = 0 := by omega
      rw [h0, resize_of_le _ _ (by simp)]
      rfl

/-- A batch that starts beyond `LastIndex()` is pushed behind the buffer as it
is. -/
theorem truncateAndAppend_of_gt (u : Unstable) (b : Entry) (bs : EntryVec)
    (h : ∀ last, u.LastIndex = .ok last → last < b.index) :
    u.TruncateAndAppend (b :: bs) = .ok ⟨u.entries ++ b :: bs⟩ := by
  obtain ⟨es⟩ := u
  cases es with
  | nil => rfl
  | cons e es =>
    obtain ⟨last, hl⟩ := lastIndex_cons_ok e es
    have hlt := h last hl
    unfold Unstable.TruncateAndAppend
    simp only [List.isEmpty_cons, Bool.false_eq_true, if_false, hl, firstIndex_cons]
    rw [if_neg (by omega)]

/-- On a buffer with contiguous indices below `2^63` every call of
`TruncateAndAppend` with a non-empty batch returns: the size passed to `resize`
is at most the length of the buffer. -/
theorem truncateAndAppend_total_below63 (u : Unstable) (batch : EntryVec) (hne : batch ≠ [])
    (hc : Contiguous u.entries) (hu63 : IndicesBelow63 u.entries) :
    ∃ u', u.TruncateAndAppend batch = .ok u' := by
  cases batch with
  | nil => exact absurd rfl hne
  | cons b bs =>
    obtain ⟨es⟩ := u
    cases es with
    | nil => exact ⟨_, rfl⟩
    | cons e es =>
      have hch : chainFrom e.index (e :: es) := (contiguous_cons_iff e es).1 hc
      have hl' := lastIndex_of_chainFrom e es hch
      have hlast63 : e.index + es.length < 2 ^ 63 := by
        have hk : es.length < (e :: es).length := by simp
        have h1 := chainFrom_getD hch es.length hk
        rw [List.getD_eq_getElem _ _ hk] at h1
        have h2 := hu63 _ (List.getElem_mem hk)
        omega
      by_cases hle : b.index ≤ e.index + es.length
      · rw [truncateAndAppend_cons e es b bs _ hl' (hu63 e (by simp)) (by omega), if_pos hle,
          resize_of_le _ _ (by simp only [List.length_cons]; omega)]
        exact ⟨_, rfl⟩
      · refine ⟨_, truncateAndAppend_of_gt _ b bs ?_⟩
        intro last hl
        rw [hl'] at hl
        injection hl with hl
        omega

/-- On a contiguous buffer and an adjacent batch, `TruncateAndAppend` keeps the
old entries below the first index of the batch and appends the batch. -/
theorem truncateAndAppend_adjacent (u : Unstable) (b : Entry) (bs : EntryVec)
    (hc : Contiguous u.entries) (hu63 : IndicesBelow63 u.entries)
    (hb63 : IndicesBelow63 (b :: bs)) (hadj : Adjacent u (b :: bs)) :
    u.TruncateAndAppend (b :: bs)
      = .ok ⟨u.entries.filter (fun e => decide (e.index < b.index)) ++ b :: bs⟩ := by
  obtain ⟨es⟩ := u
  cases es with
  | nil => rfl
  | cons e es =>
    have hch : chainFrom e.index (e :: es) := (contiguous_cons_iff e es).1 hc
    have hl' := lastIndex_of_chainFrom e es hch
    rcases hadj with h | ⟨b', last, hb', hl, hle⟩
    · simp at h
    · simp only [List.head?_cons, Option.some.injEq] at hb'
      subst hb'
      rw [hl'] at hl
      injection hl with hl
      subst hl
      rw [truncateAndAppend_cons e es b bs _ hl' (hu63 e (by simp)) (hb63 b (by simp))]
      by_cases hle' : b.index ≤ e.index + es.length
      · rw [if_pos hle', resize_of_le _ _ (by simp; omega), chainFrom_take_eq_filter hch]
        rfl
      · rw [if_neg hle', ← chainFrom_take_eq_filter hch, List.take_of_length_le (by simp; omega)]

theorem chainFrom_filter_append {f : Nat} {es : EntryVec} (b : Entry) (bs : EntryVec)
    (hch : chainFrom f es) (hcb : chainFrom b.index (b :: bs)) (hle : b.index ≤ f + es.length) :
    chainFrom (min f b.index) (es.filter (fun e => decide (e.index < b.index)) ++ b :: bs) := by
  rw [← chainFrom_take_eq_filter hch]
  by_cases h : b.index ≤ f
  · have h0 : b.index - f = 0 := by omega
    rw [h0, Nat.min_eq_right h]
    simpa using hcb
  · have hm : min f b.index = f := by omega
    rw [hm]
    refine chainFrom_append (chainFrom_take hch _) ?_
    have : f + (List.take (b.index - f) es).length = b.index := by
      rw [List.length_take]; omega
    rw [this]; exact hcb

theorem truncateAndAppend_preserves (u u' : Unstable) (batch : EntryVec)
    (hc : Contiguous u.entries) (hu63 : IndicesBelow63 u.entries)
    (hne : batch ≠ []) (hcb : Contiguous batch) (hb63 : IndicesBelow63 batch)
    (hadj : Adjacent u batch) (h : u.TruncateAndAppend batch = .ok u') :
    Contiguous u'.entries ∧ IndicesBelow63 u'.entries := by
  cases batch with
  | nil => exact absurd rfl hne
  | cons b bs =>
    rw [truncateAndAppend_adjacent u b bs hc hu63 hb63 hadj] at h
    injection h with h
    subst h
    have hchb : chainFrom b.index (b :: bs) := (contiguous_cons_iff b bs).1 hcb
    constructor
    · obtain ⟨es⟩ := u
      cases es with
      | nil => simpa using hcb
      | cons e es =>
        have hch : chainFrom e.index (e :: es) := (contiguous_cons_iff e es).1 hc
        have hl' := lastIndex_of_chainFrom e es hch
        rcases hadj with h | ⟨b', last, hb', hl, hle⟩
        · simp at h
        · simp only [List.head?_cons, Option.some.injEq] at hb'
          subst hb'
          rw [hl'] at hl
          injection hl with hl
          subst hl
          exact contiguous_of_chainFrom
            (chainFrom_filter_append b bs hch hchb (by simp; omega))
    · intro x hx
      rcases List.mem_append.1 hx with hx | hx
      · exact hu63 x (List.mem_filter.1 hx).1
      · exact hb63 x hx

/-- C2, as amended: `StableTo(i, t)` leaves the buffer unchanged for every
buffer, every `i` and every `t`. -/
theorem stableTo_noop (u : Unstable) (i t : Nat) : u.StableTo i t = u := rfl

/-- C2 fails as stated: the buffer with entries `(1,1), (2,1)` holds index 1
with term 1, and after `StableTo(1, 1)` it is not the list of old entries with
index above 1. -/
theorem stableTo_counterexample :
    (Unstable.mk [pbEntry 1 1, pbEntry 2 1]).MaybeTerm 1 = .ok (some 1)
    ∧ ((Unstable.mk [pbEntry 1 1, pbEntry 2 1]).StableTo 1 1).entries
        ≠ [pbEntry 1 1, pbEntry 2 1].filter (fun e => decide (1 < e.index)) := by
  decide

/-- C4 fails as stated: appending the batch with index 1 and then the batch with
index 3, each contiguous on its own, reaches a buffer with indices 1, 3. -/
theorem reachable_counterexample :
    Reachable ⟨[pbEntry 1 1, pbEntry 3 1]⟩ ∧ ¬ Contiguous [pbEntry 1 1, pbEntry 3 1] := by
  refine ⟨?_, by decide⟩
  have h1 : Reachable ⟨[pbEntry 1 1]⟩ :=
    Reachable.append [pbEntry 1 1] Reachable.empty (by decide) (by decide) (by decide)
  exact Reachable.append [pbEntry 3 1] h1 (by decide) (by decide) (by decide)

theorem reachableAdjacent_inv (u : Unstable) (h : ReachableAdjacent u) :
    Contiguous u.entries ∧ IndicesBelow63 u.entries := by
  induction h with
  | empty => exact ⟨by decide, by decide⟩
  | append batch _ hne hcb hb63 hadj hstep ih =>
    exact truncateAndAppend_preserves _ _ batch ih.1 ih.2 hne hcb hb63 hadj hstep

/-- C4, as amended: every buffer reachable from the empty buffer by
`TruncateAndAppend` calls, each with a non-empty batch that has contiguous
indices below `2^63` and starts at most at `LastIndex() + 1` when the buffer is
non-empty, has contiguous indices: the `k`-th entry has index
`FirstIndex() + k` and `LastIndex() = FirstIndex() + len - 1`; and every
further call with a non-empty batch returns a buffer. -/
theorem reachableAdjacent_contiguous (u : Unstable) (h : ReachableAdjacent u) :
    Contiguous u.entries ∧
    (∀ first, u.FirstIndex = .ok first →
      (∀ k, k < u.entries.length → (u.entries.getD k default).index = first + k) ∧
      u.LastIndex = .ok (first + u.entries.length - 1)) ∧
    (∀ batch, batch ≠ [] → ∃ u', u.TruncateAndAppend batch = .ok u') := by
  have hc := (reachableAdjacent_inv u h).1
  refine ⟨hc, ?_, fun batch hne =>
    truncateAndAppend_total_below63 u batch hne hc (reachableAdjacent_inv u h).2⟩
  intro first hf
  obtain ⟨es⟩ := u
  cases es with
  | nil => simp [Unstable.FirstIndex] at hf
  | cons e es =>
    rw [firstIndex_cons] at hf
    injection hf with hf
    subst hf
    have hch : chainFrom e.index (e :: es) := (contiguous_cons_iff e es).1 hc
    refine ⟨chainFrom_getD hch, ?_⟩
    rw [lastIndex_of_chainFrom e es hch]
    simp

/-! ### Quorum index -/

theorem succ_le_countP_of_sorted (S : List Nat) (hS : S.Pairwise (fun a b => b ≤ a)) :
    ∀ k x, S.get? k = some x → k + 1 ≤ S.countP (fun y => decide (x ≤ y)) := by
  induction S with
  | nil => intro k x h; simp at h
  | cons a S ih =>
    intro k x h
    rw [List.pairwise_cons] at hS
    cases k with
    | zero =>
      simp only [List.get?_cons_zero, Option.some.injEq] at h
      subst h
      rw [List.countP_cons_of_pos _ _ (by simp)]
      omega
    | succ k =>
      simp only [List.get?_cons_succ] at h
      have hx : x ≤ a := hS.1 x (List.get?_mem h)
      rw [List.countP_cons_of_pos _ _ (by simpa using hx)]
      have := ih hS.2 k x h
      omega

theorem le_of_succ_le_countP_of_sorted (S : List Nat) (hS : S.Pairwise (fun a b => b ≤ a)) :
    ∀ k x i, S.get? k = some x → k + 1 ≤ S.countP (fun y => decide (i ≤ y)) → i ≤ x := by
  induction S with
  | nil => intro k x i h; simp at h
  | cons a S ih =>
    intro k x i h hcount
    rw [List.pairwise_cons] at hS
    cases k with
    | zero =>
      simp only [List.get?_cons_zero, Option.some.injEq] at h
      subst h
      have hpos : 0 < (a :: S).countP (fun y => decide (i ≤ y)) := by omega
      obtain ⟨y, hy, hiy⟩ := List.countP_pos_iff.1 hpos
      simp only [decide_eq_true_eq] at hiy
      rcases List.mem_cons.1 hy with rfl | hy
      · exact hiy
      · exact le_trans hiy (hS.1 y hy)
    | succ k =>
      simp only [List.get?_cons_succ] at h
      have hle : (a :: S).countP (fun y => decide (i ≤ y))
          ≤ S.countP (fun y => decide (i ≤ y)) + 1 := by
        rw [List.countP_cons]; split_ifs <;> omega
      exact ih hS.2 k x i h (by omega)

theorem sortedMatches_pairwise (r : Raft) : r.sortedMatches.Pairwise (fun a b => b ≤ a) := by
  haveI : IsTotal Nat (fun a b => b ≤ a) := ⟨fun a b => le_total b a⟩
  haveI : IsTrans Nat (fun a b => b ≤ a) := ⟨fun _ _ _ hab hbc => le_trans hbc hab⟩
  exact List.sorted_insertionSort (fun a b => b ≤ a) _

theorem replicatedOn_eq_countP (r : Raft) (i : Nat) :
    r.replicatedOn i = r.sortedMatches.countP (fun y => decide (i ≤ y)) := by
  unfold Raft.replicatedOn Raft.sortedMatches
  rw [(List.perm_insertionSort (fun a b => b ≤ a) _).countP_eq, List.countP_map,
    List.countP_eq_length_filter]
  rfl

theorem quorumIndex_ok (r : Raft) (hN : 1 ≤ r.prs.length) :
    ∃ mci, r.sortedMatches.get? (r.prs.length / 2) = some mci ∧ r.quorumIndex = .ok mci := by
  have hlen : r.sortedMatches.length = r.prs.length := by
    unfold Raft.sortedMatches
    rw [List.length_insertionSort, List.length_map]
  have hlt : r.prs.length / 2 < r.sortedMatches.length := by
    rw [hlen]; omega
  refine ⟨r.sortedMatches.get ⟨_, hlt⟩, List.get?_eq_get hlt, ?_⟩
  unfold Raft.quorumIndex
  rw [List.get?_eq_get hlt]

/-- C6: with `N >= 1` peers in the progress map, the quorum index, taken at
position `N / 2` of the match indices sorted in descending order, is the
largest `i` such that at least `N / 2 + 1` peers have a match index `>= i`. -/
theorem quorumIndex_greatest (r : Raft) (hN : 1 ≤ r.prs.length) :
    ∃ mci, r.quorumIndex = .ok mci ∧
      r.sortedMatches.get? (r.prs.length / 2) = some mci ∧
      r.prs.length / 2 + 1 ≤ r.replicatedOn mci ∧
      ∀ i, r.prs.length / 2 + 1 ≤ r.replicatedOn i → i ≤ mci := by
  obtain ⟨mci, hget, hq⟩ := quorumIndex_ok r hN
  refine ⟨mci, hq, hget, ?_, ?_⟩
  · rw [replicatedOn_eq_countP]
    exact succ_le_countP_of_sorted _ (sortedMatches_pairwise r) _ _ hget
  · intro i hi
    rw [replicatedOn_eq_countP] at hi
    exact le_of_succ_le_countP_of_sorted _ (sortedMatches_pairwise r) _ _ i hget hi

/-! ### Terms of the log -/

theorem subU64_lt_of_le (i f n : Nat) (h1 : f ≤ i) (h2 : i ≤ f + n) : subU64 i f < n + 1 := by
  unfold subU64 u64Size
  norm_num
  omega

theorem maybeTerm_no_fault (u : Unstable) (hc : Contiguous u.entries) (i : Nat) :
    ∃ o, u.MaybeTerm i = .ok o := by
  obtain ⟨es⟩ := u
  cases es with
  | nil => exact ⟨none, rfl⟩
  | cons e es =>
    have hch : chainFrom e.index (e :: es) := (contiguous_cons_iff e es).1 hc
    have hl' := lastIndex_of_chainFrom e es hch
    unfold Unstable.MaybeTerm
    simp only [List.isEmpty_cons, Bool.not_false, if_true, firstIndex_cons, hl']
    by_cases h : i ≥ e.index ∧ i ≤ e.index + es.length
    · have hlt : subU64 i e.index < (e :: es).length := by
        simpa using subU64_lt_of_le i e.index es.length h.1 h.2
      simp only [h.1, h.2, decide_True, Bool.and_self, if_true, List.get?_eq_get hlt]
      exact ⟨_, rfl⟩
    · refine ⟨none, ?_⟩
      simp only [ge_iff_le, Bool.and_eq_true, decide_eq_true_eq]
      rw [if_neg h]

theorem maybeTerm_some_bounds (u : Unstable) (i t : Nat) (h : u.MaybeTerm i = .ok (some t)) :
    ∃ first last, u.FirstIndex = .ok first ∧ u.LastIndex = .ok last ∧ first ≤ i ∧ i ≤ last := by
  unfold Unstable.MaybeTerm at h
  split at h
  · split at h
    · rename_i first last hf hl
      split at h
      · rename_i hb
        simp only [ge_iff_le, Bool.and_eq_true, decide_eq_true_eq] at hb
        exact ⟨first, last, hf, hl, hb.1, hb.2⟩
      · simp at h
    · simp at h
    · simp at h
  · simp at h

theorem maybeTerm_none_of_gt (u : Unstable) (i last : Nat) (hl : u.LastIndex = .ok last)
    (h : last < i) : u.MaybeTerm i = .ok none := by
  obtain ⟨es⟩ := u
  cases es with
  | nil => rfl
  | cons e es =>
    unfold Unstable.MaybeTerm
    simp only [List.isEmpty_cons, Bool.not_false, if_true, firstIndex_cons, hl]
    have : ¬ (i ≥ e.index ∧ i ≤ last) := by omega
    simp only [ge_iff_le, Bool.and_eq_true, decide_eq_true_eq]
    rw [if_neg this]

theorem storage_term_ok_le (s : MemoryStorage) (i t : Nat) (h : s.Term i = .ok t) :
    i ≤ s.LastIndex := by
  unfold MemoryStorage.Term at h
  unfold MemoryStorage.LastIndex
  split_ifs at h with h1 h2
  · omega
  · split at h
    · rename_i e he
      have := (List.get?_eq_some.1 he).1
      unfold MemoryStorage.FirstIndex at this
      omega
    · simp at h

theorem storage_term_of_gt (s : MemoryStorage) (i : Nat) (h : s.LastIndex < i) :
    s.Term i = .error .ErrUnavailable := by
  unfold MemoryStorage.LastIndex at h
  unfold MemoryStorage.Term
  rw [if_neg (by omega), if_neg (by omega)]
  have : s.entries.get? (i - s.FirstIndex) = none := by
    rw [List.get?_eq_none]; unfold MemoryStorage.FirstIndex; omega
  rw [this]

theorem storage_lastIndex_le (l : RaftLog) (hwf : l.WellFormed) :
    l.storage.LastIndex ≤ l.LastIndex := by
  obtain ⟨hc, hoff⟩ := hwf
  unfold RaftLog.LastIndex
  cases hes : l.unstable.entries with
  | nil =>
    have : l.unstable.LastIndex = .error .assertion := by
      unfold Unstable.LastIndex; rw [hes]; rfl
    rw [this]
  | cons e es =>
    have hu : l.unstable = ⟨e :: es⟩ := by
      cases hu' : l.unstable; rw [hu'] at hes; simp only at hes; rw [hes]
    rw [hes] at hc
    have hch : chainFrom e.index (e :: es) := (contiguous_cons_iff e es).1 hc
    have hl' := lastIndex_of_chainFrom e es hch
    rw [hu] at hoff ⊢
    rw [hl']
    rw [firstIndex_cons] at hoff
    simp only at hoff ⊢
    omega

theorem raftLog_term_no_fault (l : RaftLog) (hc : Contiguous l.unstable.entries) (i : Nat) :
    ∃ t, l.Term i = .ok t := by
  unfold RaftLog.Term
  split_ifs
  · exact ⟨_, rfl⟩
  · obtain ⟨o, ho⟩ := maybeTerm_no_fault l.unstable hc i
    rw [ho]
    cases o <;> exact ⟨_, rfl⟩

theorem raftLog_term_ok_le (l : RaftLog) (hwf : l.WellFormed) (i t : Nat)
    (h : l.Term i = .ok (.ok t)) : i ≤ l.LastIndex := by
  unfold RaftLog.Term at h
  split_ifs at h with h1
  · simp at h
  · split at h
    · simp at h
    · rename_i t' hm
      obtain ⟨first, last, _, hl, _, hle⟩ := maybeTerm_some_bounds _ _ _ hm
      unfold RaftLog.LastIndex
      rw [hl]
      exact hle
    · simp only [Except.ok.injEq] at h
      exact le_trans (storage_term_ok_le _ _ _ h) (storage_lastIndex_le l hwf)

theorem raftLog_term_of_gt (l : RaftLog) (hwf : l.WellFormed) (i : Nat) (h : l.LastIndex < i) :
    l.Term i = .ok (.error .ErrUnavailable) := by
  have hs := storage_lastIndex_le l hwf
  have hm : l.unstable.MaybeTerm i = .ok none := by
    cases hl : l.unstable.LastIndex with
    | ok last =>
      unfold RaftLog.LastIndex at h
      rw [hl] at h
      exact maybeTerm_none_of_gt _ _ _ hl h
    | error f =>
      have : l.unstable.entries = [] := by
        unfold Unstable.LastIndex at hl
        cases hes : l.unstable.entries with
        | nil => rfl
        | cons e es =>
          rw [hes] at hl
          cases hg : (e :: es).getLast? with
          | none => simp at hg
          | some x => rw [hg] at hl; simp at hl
      unfold Unstable.MaybeTerm
      simp [this]
  unfold RaftLog.Term
  rw [if_neg (by unfold MemoryStorage.FirstIndex; unfold MemoryStorage.LastIndex at hs; omega), hm]
  simp only
  rw [storage_term_of_gt _ _ (by omega)]

/-- C7: on a leader state with a non-empty progress map and a log that satisfies
the invariants of the data model, `advanceCommitIndex` sets committed to the
quorum index `mci` if `mci > committed` and the term of the log at `mci` is
`currentTerm`, and otherwise leaves the state as it is; committed never moves
to an index whose term differs from `currentTerm`.  The two rows of
`TestCommit` with matches `2, 1, 2` at term 2 give commit 0 for the log
`(1,1), (2,1)` and commit 2 for the log `(1,1), (2,2)`. -/
theorem advanceCommitIndex_term_guard (r : Raft) (hN : 1 ≤ r.prs.length)
    (hwf : r.log.WellFormed) :
    ∃ mci, r.quorumIndex = .ok mci ∧
      ((r.log.committed < mci ∧ r.log.Term mci = .ok (.ok r.currentTerm)) →
        r.advanceCommitIndex = .ok { r with log := { r.log with committed := mci } }) ∧
      (¬ (r.log.committed < mci ∧ r.log.Term mci = .ok (.ok r.currentTerm)) →
        r.advanceCommitIndex = .ok r) ∧
      (∀ r', r.advanceCommitIndex = .ok r' → r'.log.committed ≠ r.log.committed →
        r.log.Term r'.log.committed = .ok (.ok r.currentTerm)) ∧
      (commitTestRaft [2, 1, 2] [pbEntry 1 1, pbEntry 2 1] 2).advanceCommitIndex.map
        (fun r' => r'.log.CommitIndex) = .ok 0 ∧
      (commitTestRaft [2, 1, 2] [pbEntry 1 1, pbEntry 2 2] 2).advanceCommitIndex.map
        (fun r' => r'.log.CommitIndex) = .ok 2 := by
  obtain ⟨mci, _, hq⟩ := quorumIndex_ok r hN
  obtain ⟨t, ht⟩ := raftLog_term_no_fault r.log hwf.1 mci
  have hyes : (r.log.committed < mci ∧ r.log.Term mci = .ok (.ok r.currentTerm)) →
      r.advanceCommitIndex = .ok { r with log := { r.log with committed := mci } } := by
    rintro ⟨h1, h2⟩
    have hle := raftLog_term_ok_le r.log hwf mci _ h2
    unfold Raft.advanceCommitIndex
    simp only [hq, h1, if_true, h2, RaftLog.CommitTo, hle]
  have hno : ¬ (r.log.committed < mci ∧ r.log.Term mci = .ok (.ok r.currentTerm)) →
      r.advanceCommitIndex = .ok r := by
    intro h
    unfold Raft.advanceCommitIndex
    simp only [hq]
    by_cases h1 : r.log.committed < mci
    · have h2 : t ≠ .ok r.currentTerm := by
        intro h2; rw [h2] at ht; exact h ⟨h1, ht⟩
      simp only [h1, if_true, ht, h2, if_false]
    · simp only [h1, if_false]
  refine ⟨mci, hq, hyes, hno, ?_, by decide, by decide⟩
  intro r' hr' hne
  by_cases h : r.log.committed < mci ∧ r.log.Term mci = .ok (.ok r.currentTerm)
  · rw [hyes h] at hr'
    injection hr' with hr'
    subst hr'
    exact h.2
  · rw [hno h] at hr'
    injection hr' with hr'
    subst hr'
    exact absurd rfl hne

/-! ### Handling of append messages -/

theorem matchTerm_no_fault (l : RaftLog) (hc : Contiguous l.unstable.entries) (i t : Nat) :
    ∃ b, l.MatchTerm i t = .ok b := by
  obtain ⟨x, hx⟩ := raftLog_term_no_fault l hc i
  unfold RaftLog.MatchTerm
  rw [hx]
  exact ⟨_, rfl⟩

theorem matchTerm_of_gt (l : RaftLog) (hwf : l.WellFormed) (i t : Nat) (h : l.LastIndex < i) :
    l.MatchTerm i t = .ok false := by
  unfold RaftLog.MatchTerm
  rw [raftLog_term_of_gt l hwf i h]
  simp

theorem findConflict_ok (l : RaftLog) (hc : Contiguous l.unstable.entries) (ents : EntryVec) :
    ∃ ci, l.FindConflict ents = .ok ci ∧
      (ci = 0 ∨ ∃ k, k < ents.length ∧ (ents.getD k default).index = ci) := by
  induction ents with
  | nil => exact ⟨0, rfl, Or.inl rfl⟩
  | cons e rest ih =>
    obtain ⟨b, hb⟩ := matchTerm_no_fault l hc e.index e.term
    unfold RaftLog.FindConflict
    rw [hb]
    simp only
    split_ifs with hcond
    · exact ⟨e.index, rfl, Or.inr ⟨0, by simp, by simp⟩⟩
    · obtain ⟨ci, hci, hor⟩ := ih
      refine ⟨ci, hci, ?_⟩
      rcases hor with h0 | ⟨k, hk, hidx⟩
      · exact Or.inl h0
      · exact Or.inr ⟨k + 1, by simpa using hk, by simpa using hidx⟩

theorem maybeAppend_ok (l : RaftLog) (prevIndex prevTerm leaderCommit : Nat) (ents : EntryVec)
    (hm : l.MatchTerm prevIndex prevTerm = .ok true) (hc : Contiguous l.unstable.entries)
    (hu63 : IndicesBelow63 l.unstable.entries) (he : FollowsPrev prevIndex ents) :
    ∃ l', l.MaybeAppend prevIndex prevTerm leaderCommit ents
        = .ok (l', some (prevIndex + ents.length)) ∧
      l'.committed = max l.committed (min leaderCommit (prevIndex + ents.length)) := by
  obtain ⟨ci, hci, hor⟩ := findConflict_ok l hc ents
  unfold RaftLog.MaybeAppend
  simp only [hm, hci]
  by_cases h0 : ci = 0
  · simp only [h0, if_true]
    exact ⟨_, rfl, rfl⟩
  · rcases hor with h | ⟨k, hk, hidx⟩
    · exact absurd h h0
    · have hpos : ci - prevIndex - 1 = k := by
        have := he k hk
        omega
      have hne : ents.drop (ci - prevIndex - 1) ≠ [] := by
        rw [hpos]
        intro hnil
        have := congrArg List.length hnil
        simp at this
        omega
      obtain ⟨u', hu'⟩ := truncateAndAppend_total_below63 l.unstable _ hne hc hu63
      simp only [h0, if_false, hu']
      exact ⟨_, rfl, rfl⟩

/-- C8: when the previous index of the message is not below committed and the
log does not match `(prevLogIndex, prevLogTerm)`, either because the term
lookup does not give `prevLogTerm` or because `prevLogIndex` is beyond the last
index of a log that satisfies the invariants, `handleAppendEntries` places
exactly one response in the mailbox, with `reject = true`, and the last index
and the commit index of the log are unchanged. -/
theorem handleAppendEntries_rejects (r : Raft) (m : Message)
    (hc : r.log.committed ≤ m.index)
    (hm : r.log.MatchTerm m.index m.logTerm = .ok false ∨
      (r.log.WellFormed ∧ r.log.LastIndex < m.index)) :
    ∃ r' resp, r.handleAppendEntries m = .ok r' ∧
      r'.mails = r.mails ++ [resp] ∧ resp.reject = true ∧
      r'.log.LastIndex = r.log.LastIndex ∧ r'.log.CommitIndex = r.log.CommitIndex := by
  have hm' : r.log.MatchTerm m.index m.logTerm = .ok false := by
    rcases hm with h | ⟨hwf, hgt⟩
    · exact h
    · exact matchTerm_of_gt r.log hwf _ _ hgt
  have hnot : ¬ m.index < r.log.committed := by omega
  unfold Raft.handleAppendEntries
  simp only [hnot, if_false, RaftLog.MaybeAppend, hm']
  exact ⟨_, _, rfl, rfl, rfl, rfl, rfl⟩

/-- C9, as amended: when the log, whose unstable indices are contiguous and below
`2^63`, matches `(prevLogIndex, prevLogTerm)` with `prevLogIndex >= committed`
and the entries of the message are numbered from `prevLogIndex + 1`,
`handleAppendEntries` returns with the commit index
`max(old commit, min(leaderCommit, prevLogIndex + number of entries))` and
places exactly one response in the mailbox, with `reject = false`. -/
theorem handleAppendEntries_commits (r : Raft) (m : Message)
    (hc : r.log.committed ≤ m.index)
    (hm : r.log.MatchTerm m.index m.logTerm = .ok true)
    (hu : Contiguous r.log.unstable.entries) (hu63 : IndicesBelow63 r.log.unstable.entries)
    (he : FollowsPrev m.index m.entries) :
    ∃ r' resp, r.handleAppendEntries m = .ok r' ∧
      r'.log.CommitIndex
        = max r.log.CommitIndex (min m.commit (m.index + m.entries.length)) ∧
      r'.mails = r.mails ++ [resp] ∧ resp.reject = false := by
  obtain ⟨l', hl', hcommit⟩ :=
    maybeAppend_ok r.log m.index m.logTerm m.commit m.entries hm hu hu63 he
  have hnot : ¬ m.index < r.log.committed := by omega
  unfold Raft.handleAppendEntries
  simp only [hnot, if_false, hl']
  exact ⟨_, _, rfl, hcommit, rfl, rfl⟩

/-- C9 fails as stated: a follower at term 2 whose unstable buffer holds the one
index `2^63 + 5` receives a `MsgApp` at term 2 with previous index 0, previous
term 0 and the entry `(1, 2)`.  The message matches the log at `(0, 0)` and 0
is not below committed, but the entry conflicts at index 1, `TruncateAndAppend`
asks `resize` for `2^63 - 4` entries, and the call ends in `std::length_error`:
no response is placed in the mailbox and no commit index is set. -/
theorem handleAppendEntries_commits_counterexample :
    wrapAppendRaft.role = StateRole.kFollower ∧
    wrapAppendMsg.type = MessageType.MsgApp ∧ wrapAppendMsg.term = wrapAppendRaft.currentTerm ∧
    wrapAppendRaft.log.MatchTerm wrapAppendMsg.index wrapAppendMsg.logTerm = .ok true ∧
    wrapAppendRaft.log.committed ≤ wrapAppendMsg.index ∧
    Contiguous wrapAppendRaft.log.unstable.entries ∧
    FollowsPrev wrapAppendMsg.index wrapAppendMsg.entries ∧
    wrapAppendRaft.log.WellFormed ∧
    truncSize 1 (2 ^ 63 + 5) = 2 ^ 63 - 4 ∧
    wrapAppendRaft.handleAppendEntries wrapAppendMsg = .error .lengthError := by
  decide

/-- The numbering of the entries is needed in C9: on the follower of
`TestHandleMsgApp` a message with previous index 1 and the one entry `(5, 1)`
matches at `(1, 1)`, the conflict is found at index 5, the slice
`entries[5 - 1 - 1 ..]` is empty and `TruncateAndAppend` fails its assertion. -/
theorem handleAppendEntries_unnumbered_entries :
    msgAppTestRaft.log.MatchTerm 1 1 = .ok true ∧
    ¬ FollowsPrev 1 [pbEntry 5 1] ∧
    msgAppTestRaft.handleAppendEntries
      { type := .MsgApp, term := 2, logTerm := 1, index := 1, entries := [pbEntry 5 1] }
      = .error .assertion := by
  decide

/-- The contiguity of the unstable buffer is needed in C9: with the unstable
indices 1, 5 a message with previous index 1 and the entries `(2, 1), (3, 1)`
matches at `(1, 1)`, and the lookup of the term at index 3 reads position 2 of
a vector of length 2. -/
theorem handleAppendEntries_gap_in_unstable :
    gapAppendRaft.log.MatchTerm 1 1 = .ok true ∧
    ¬ Contiguous gapAppendRaft.log.unstable.entries ∧
    FollowsPrev 1 [pbEntry 2 1, pbEntry 3 1] ∧
    gapAppendRaft.handleAppendEntries
      { type := .MsgApp, term := 2, logTerm := 1, index := 1,
        entries := [pbEntry 2 1, pbEntry 3 1] }
      = .error .outOfRange := by
  decide

/-- C10: for a message with `0 < m.term < currentTerm`, `Step` returns a state
with the same role, term and log, and the result is the same for every
per-role handler, so the handler is not called. -/
theorem step_ignores_old_term (step : Raft → Message → Except Fault Raft) (r : Raft)
    (m : Message) (h0 : 0 < m.term) (hlt : m.term < r.currentTerm) :
    ∃ r', Raft.Step step r m = .ok r' ∧
      r'.role = r.role ∧ r'.currentTerm = r.currentTerm ∧ r'.log = r.log ∧
      ∀ step', Raft.Step step' r m = .ok r' := by
  have h1 : ¬ m.term = 0 := by omega
  have h2 : ¬ r.currentTerm < m.term := by omega
  by_cases ht : m.type = .MsgApp ∨ m.type = .MsgHeartbeat
  · refine ⟨r.send { type := .MsgAppResp, From := r.id, To := m.From, term := r.currentTerm },
      ?_, rfl, rfl, rfl, ?_⟩
    · unfold Raft.Step
      simp only [h1, h2, hlt, ht, if_true, if_false]
    · intro step'
      unfold Raft.Step
      simp only [h1, h2, hlt, ht, if_true, if_false]
  · refine ⟨r, ?_, rfl, rfl, rfl, ?_⟩
    · unfold Raft.Step
      simp only [h1, h2, hlt, ht, if_true, if_false]
    · intro step'
      unfold Raft.Step
      simp only [h1, h2, hlt, ht, if_true, if_false]

/-! ### More on `TruncateAndAppend` -/

theorem truncateAndAppend_resize (e : Entry) (es : EntryVec) (b : Entry) (bs : EntryVec)
    (last : Nat) (hl : (Unstable.mk (e :: es)).LastIndex = .ok last) :
    (Unstable.mk (e :: es)).TruncateAndAppend (b :: bs) =
      if b.index ≤ last then
        (resize (e :: es) (truncSize b.index e.index)).map (fun xs => ⟨xs ++ b :: bs⟩)
      else .ok ⟨e :: es ++ b :: bs⟩ := by
  unfold Unstable.TruncateAndAppend
  simp only [List.isEmpty_cons, Bool.false_eq_true, if_false, hl, firstIndex_cons]
  by_cases h : b.index ≤ last
  · simp only [h, if_true]
    unfold truncSize
    cases resize (e :: es) (if toInt64 (subU64 b.index e.index) < 0 then (0 : Int)
      else toInt64 (subU64 b.index e.index)).toNat <;> rfl
  · simp only [h, if_false]

theorem lastIndex_append_chain (xs : EntryVec) (b : Entry) (bs : EntryVec)
    (hcb : chainFrom b.index (b :: bs)) :
    (Unstable.mk (xs ++ b :: bs)).LastIndex = .ok (b.index + bs.length) := by
  have h := lastIndex_of_chainFrom b bs hcb
  unfold Unstable.LastIndex at h ⊢
  rw [List.getLast?_append_cons]
  exact h

theorem length_of_resize {es X : EntryVec} {n : Nat} (h : resize es n = .ok X) :
    X.length = n := by
  unfold resize at h
  split_ifs at h
  injection h with h
  subst h
  simp only [List.length_append, List.length_take, List.length_replicate]
  omega

theorem head_of_resize {e x : Entry} {es X : EntryVec} {n : Nat}
    (h : resize (e :: es) n = .ok (x :: X)) : x = e := by
  have hlen := length_of_resize h
  unfold resize at h
  split_ifs at h
  injection h with h
  cases n with
  | zero => simp at hlen
  | succ n =>
    rw [List.take_succ_cons] at h
    simp only [List.cons_append, List.cons.injEq] at h
    exact h.1.symm

theorem fault_of_resize {es : EntryVec} {n : Nat} {f : Fault} (h : resize es n = .error f) :
    f = Fault.lengthError := by
  unfold resize at h
  split_ifs at h
  injection h with h
  exact h.symm

theorem resize_append_left (xs ys : EntryVec) : resize (xs ++ ys) xs.length = .ok xs := by
  rw [resize_of_le _ _ (by simp)]
  simp

theorem truncSize_self (a : Nat) : truncSize a a = 0 := by
  unfold truncSize toInt64 subU64 u64Size
  norm_num

theorem truncSize_of_lt63 (a b : Nat) (ha : a < 2 ^ 63) (hb : b < 2 ^ 63) :
    truncSize a b = a - b := truncSize_eq a b ha hb

theorem truncSize_of_le (a b : Nat) (ha : a < u64Size) (hb : b ≤ a) (hd : a - b < 2 ^ 63) :
    truncSize a b = a - b := by
  unfold truncSize toInt64 subU64
  unfold u64Size at *
  norm_num at ha hd ⊢
  split_ifs <;> omega

theorem truncSize_le_sub (a b : Nat) (ha : a < u64Size) (hb : b ≤ a) :
    truncSize a b ≤ a - b := by
  unfold truncSize toInt64 subU64
  unfold u64Size at *
  norm_num at ha ⊢
  split_ifs <;> omega

theorem truncSize_of_gap (a b : Nat) (hb : b < u64Size) (hab : a < b)
    (hgap : b ≤ a + 2 ^ 63) : truncSize a b = 0 := by
  unfold truncSize toInt64 subU64
  unfold u64Size at *
  norm_num at hb hgap ⊢
  split_ifs <;> omega

theorem chainFrom_get?_of_mem {f : Nat} {es : EntryVec} (h : chainFrom f es) {e : Entry}
    (he : e ∈ es) : f ≤ e.index ∧ es.get? (e.index - f) = some e := by
  obtain ⟨k, hk, rfl⟩ := List.getElem_of_mem he
  have := chainFrom_getD h k hk
  rw [List.getD_eq_getElem _ _ hk] at this
  refine ⟨by omega, ?_⟩
  have hpos : es[k].index - f = k := by omega
  rw [hpos, List.get?_eq_get hk]
  rfl

/-- `MaybeTerm` on a buffer whose indices count up from `f`. -/
theorem maybeTerm_of_chainFrom {f : Nat} {es : EntryVec} (h : chainFrom f es) (i : Nat)
    (hi : i < u64Size) :
    (Unstable.mk es).MaybeTerm i
      = .ok (if f ≤ i then (es.get? (i - f)).map Entry.term else none) := by
  cases es with
  | nil =>
    unfold Unstable.MaybeTerm
    simp
  | cons e es =>
    have hf : e.index = f := h.1
    have hl' := lastIndex_of_chainFrom e es h
    unfold Unstable.MaybeTerm
    simp only [List.isEmpty_cons, Bool.not_false, if_true, firstIndex_cons, hl', hf]
    by_cases h1 : f ≤ i
    · rw [subU64_eq i f hi h1]
      by_cases h2 : i ≤ f + es.length
      · have hlt : i - f < (e :: es).length := by simp; omega
        simp only [ge_iff_le, h1, h2, decide_True, Bool.and_self, if_true, List.get?_eq_get hlt]
        rfl
      · have hge : (e :: es).length ≤ i - f := by simp; omega
        simp only [ge_iff_le, h1, h2, decide_True, decide_False, Bool.and_false, if_true]
        rw [List.get?_eq_none.2 hge]
        rfl
    · simp only [ge_iff_le, h1, decide_False, Bool.false_and, if_false]
      rfl

theorem firstIndex_of_chainFrom {f : Nat} {es : EntryVec} (h : chainFrom f es) (hne : es ≠ []) :
    (Unstable.mk es).FirstIndex = .ok f := by
  cases es with
  | nil => exact absurd rfl hne
  | cons e es => rw [firstIndex_cons, h.1]

/-- The shape of the buffer after `TruncateAndAppend` of an adjacent batch: its
indices count up from the smaller of the two first indices. -/
theorem truncateAndAppend_adjacent_chain (u : Unstable) (b : Entry) (bs : EntryVec)
    (hc : Contiguous u.entries) (hcb : Contiguous (b :: bs)) (hadj : Adjacent u (b :: bs)) :
    ∃ f, chainFrom f (u.entries.filter (fun e => decide (e.index < b.index)) ++ b :: bs) ∧
      (u.entries = [] → f = b.index) ∧
      (∀ first, u.FirstIndex = .ok first → f = min first b.index) := by
  have hchb : chainFrom b.index (b :: bs) := (contiguous_cons_iff b bs).1 hcb
  obtain ⟨es⟩ := u
  cases es with
  | nil =>
    refine ⟨b.index, by simpa using hchb, fun _ => rfl, ?_⟩
    intro first hf
    simp [Unstable.FirstIndex] at hf
  | cons e es =>
    have hch : chainFrom e.index (e :: es) := (contiguous_cons_iff e es).1 hc
    have hl' := lastIndex_of_chainFrom e es hch
    rcases hadj with h | ⟨b', last, hb', hl, hle⟩
    · simp at h
    · simp only [List.head?_cons, Option.some.injEq] at hb'
      subst hb'
      rw [hl'] at hl
      injection hl with hl
      subst hl
      refine ⟨min e.index b.index,
        chainFrom_filter_append b bs hch hchb (by simp; omega), fun h => by simp at h, ?_⟩
      intro first hf
      rw [firstIndex_cons] at hf
      injection hf with hf
      rw [hf]

/-- C15: on a buffer with contiguous indices and a non-empty batch with
contiguous indices that is adjacent to it (the buffer is empty or the first
index of the batch is at most `LastIndex() + 1`), all indices being below
`2^63`, `TruncateAndAppend` returns a buffer with contiguous indices whose
`LastIndex()` is the index of the last entry of the batch and whose
`FirstIndex()` is the minimum of the old `FirstIndex()` and the first index of
the batch (the first index of the batch when the buffer was empty). -/
theorem truncateAndAppend_keeps_contiguous (u : Unstable) (b : Entry) (bs : EntryVec)
    (hc : Contiguous u.entries) (hcb : Contiguous (b :: bs)) (hadj : Adjacent u (b :: bs))
    (hu63 : IndicesBelow63 u.entries) (hb63 : IndicesBelow63 (b :: bs)) :
    ∃ u', u.TruncateAndAppend (b :: bs) = .ok u' ∧ Contiguous u'.entries ∧
      u'.LastIndex = .ok ((b :: bs).getLast (List.cons_ne_nil b bs)).index ∧
      (u.entries = [] → u'.FirstIndex = .ok b.index) ∧
      (∀ first, u.FirstIndex = .ok first → u'.FirstIndex = .ok (min first b.index)) := by
  have hchb : chainFrom b.index (b :: bs) := (contiguous_cons_iff b bs).1 hcb
  obtain ⟨f, hchain, hempty, hfirst⟩ := truncateAndAppend_adjacent_chain u b bs hc hcb hadj
  have hne : u.entries.filter (fun e => decide (e.index < b.index)) ++ b :: bs ≠ [] := by simp
  have hfi := firstIndex_of_chainFrom hchain hne
  refine ⟨_, truncateAndAppend_adjacent u b bs hc hu63 hb63 hadj,
    contiguous_of_chainFrom hchain, ?_, ?_, ?_⟩
  · unfold Unstable.LastIndex
    simp only
    rw [List.getLast?_append_cons, List.getLast?_eq_getLast _ (List.cons_ne_nil b bs)]
  · intro h
    rw [hfi, hempty h]
  · intro first hf
    rw [hfi, hfirst first hf]

/-- C17, as amended: on a buffer with contiguous indices and a non-empty batch
with contiguous indices that is adjacent to it, all indices being below `2^63`,
after `TruncateAndAppend` the call `MaybeTerm(e.index)` returns `e.term` for
every entry `e` of the batch, and `MaybeTerm(i)` is what it was before for
every `i` smaller than the first index of the batch. -/
theorem truncateAndAppend_read_back (u : Unstable) (b : Entry) (bs : EntryVec)
    (hc : Contiguous u.entries) (hcb : Contiguous (b :: bs)) (hadj : Adjacent u (b :: bs))
    (hu63 : IndicesBelow63 u.entries) (hb63 : IndicesBelow63 (b :: bs)) :
    ∃ u', u.TruncateAndAppend (b :: bs) = .ok u' ∧
      (∀ e ∈ b :: bs, u'.MaybeTerm e.index = .ok (some e.term)) ∧
      (∀ i, i < b.index → u'.MaybeTerm i = u.MaybeTerm i) := by
  obtain ⟨f, hchain, hempty, hfirst⟩ := truncateAndAppend_adjacent_chain u b bs hc hcb hadj
  have hb : b.index < 2 ^ 63 := hb63 b (by simp)
  refine ⟨_, truncateAndAppend_adjacent u b bs hc hu63 hb63 hadj, ?_, ?_⟩
  · intro e he
    have hmem : e ∈ u.entries.filter (fun e => decide (e.index < b.index)) ++ b :: bs :=
      List.mem_append_right _ he
    obtain ⟨hle, hget⟩ := chainFrom_get?_of_mem hchain hmem
    have he64 : e.index < u64Size := by
      have := hb63 e he
      unfold u64Size
      omega
    rw [maybeTerm_of_chainFrom hchain _ he64, if_pos hle, hget]
    rfl
  · intro i hi
    have hi64 : i < u64Size := by unfold u64Size; omega
    rw [maybeTerm_of_chainFrom hchain i hi64]
    obtain ⟨es⟩ := u
    cases es with
    | nil =>
      have hf : f = b.index := hempty rfl
      rw [if_neg (by omega)]
      rfl
    | cons e es =>
      have hch : chainFrom e.index (e :: es) := (contiguous_cons_iff e es).1 hc
      have hf : f = min e.index b.index := hfirst e.index (firstIndex_cons e es)
      rw [maybeTerm_of_chainFrom hch i hi64]
      by_cases h1 : e.index ≤ i
      · have hf' : f = e.index := by omega
        have hlen : b.index - e.index ≤ (e :: es).length := by
          rcases hadj with h | ⟨b', last, hb', hl, hle⟩
          · simp at h
          · simp only [List.head?_cons, Option.some.injEq] at hb'
            subst hb'
            rw [lastIndex_of_chainFrom e es hch] at hl
            injection hl with hl
            simp only [List.length_cons]
            omega
        rw [if_pos (by omega), if_pos h1, hf']
        simp only
        rw [← chainFrom_take_eq_filter hch]
        have hlt : i - e.index < (List.take (b.index - e.index) (e :: es)).length := by
          rw [List.length_take]; omega
        simp only [List.get?_eq_getElem?]
        rw [List.getElem?_append_left hlt, List.getElem?_take, if_pos (by omega)]
      · rw [if_neg (by omega), if_neg h1]

/-- C17 fails as stated: the buffer with the one index `2^64 - 2` is contiguous,
and the batch with index 1 starts below `LastIndex() + 1`, but the signed size
is 3, the buffer is padded with default entries, and `MaybeTerm(1)` is none
afterwards instead of the term 2 of the batch entry. -/
theorem truncateAndAppend_read_back_counterexample :
    Contiguous [pbEntry (2 ^ 64 - 2) 1] ∧ Contiguous [pbEntry 1 2] ∧
    (Unstable.mk [pbEntry (2 ^ 64 - 2) 1]).LastIndex = .ok (2 ^ 64 - 2) ∧
    (pbEntry 1 2).index ≤ (2 ^ 64 - 2) + 1 ∧
    (Unstable.mk [pbEntry (2 ^ 64 - 2) 1]).TruncateAndAppend [pbEntry 1 2]
      = .ok ⟨[pbEntry (2 ^ 64 - 2) 1, default, default, pbEntry 1 2]⟩ ∧
    (Unstable.mk [pbEntry (2 ^ 64 - 2) 1, default, default, pbEntry 1 2]).MaybeTerm
        (pbEntry 1 2).index = .ok none ∧
    (Unstable.mk [pbEntry (2 ^ 64 - 2) 1, default, default, pbEntry 1 2]).MaybeTerm
        (pbEntry 1 2).index ≠ .ok (some (pbEntry 1 2).term) := by
  decide

theorem truncateAndAppend_self (b : Entry) (bs : EntryVec) (hchb : chainFrom b.index (b :: bs)) :
    (Unstable.mk (b :: bs)).TruncateAndAppend (b :: bs) = .ok ⟨b :: bs⟩ := by
  rw [truncateAndAppend_resize b bs b bs _ (lastIndex_of_chainFrom b bs hchb),
    if_pos (by omega), truncSize_self, resize_of_le _ _ (by simp)]
  rfl

/-- The wrap of the size computation ends in `std::length_error` when the size
is beyond what a vector holds: for the buffer with the one index `2^63 + 2` and
the batch with index 1 the size is `2^63 - 1`. -/
theorem truncateAndAppend_lengthError_example :
    truncSize 1 (2 ^ 63 + 2) = 2 ^ 63 - 1 ∧
    (Unstable.mk [pbEntry (2 ^ 63 + 2) 1]).TruncateAndAppend [pbEntry 1 2]
      = .error .lengthError := by
  decide

/-- C18: on a buffer with contiguous indices that holds fewer than `2^63`
entries and a non-empty batch with contiguous indices that is adjacent to it,
the first index of the batch being a 64-bit value: whenever `TruncateAndAppend`
returns a buffer, applying it to that buffer with the same batch returns the
same buffer again; the first call can only fail with `std::length_error` from
`resize`, which leaves the vector as it was, and it does return whenever all
indices are below `2^63`. -/
theorem truncateAndAppend_idempotent (u : Unstable) (b : Entry) (bs : EntryVec)
    (hc : Contiguous u.entries) (hcb : Contiguous (b :: bs)) (hadj : Adjacent u (b :: bs))
    (hlen : u.entries.length < 2 ^ 63) (hb64 : b.index < u64Size) :
    (∀ u', u.TruncateAndAppend (b :: bs) = .ok u' →
      u'.TruncateAndAppend (b :: bs) = .ok u') ∧
    (∀ f, u.TruncateAndAppend (b :: bs) = .error f → f = Fault.lengthError) ∧
    (IndicesBelow63 u.entries → IndicesBelow63 (b :: bs) →
      ∃ u', u.TruncateAndAppend (b :: bs) = .ok u') := by
  have hchb : chainFrom b.index (b :: bs) := (contiguous_cons_iff b bs).1 hcb
  refine ⟨?_, ?_, fun hu63 hb63 => ⟨_, truncateAndAppend_adjacent u b bs hc hu63 hb63 hadj⟩⟩
  · intro u' h
    obtain ⟨es⟩ := u
    cases es with
    | nil =>
      have h' : (Except.ok ⟨b :: bs⟩ : Except Fault Unstable) = .ok u' := h
      injection h' with h'
      subst h'
      exact truncateAndAppend_self b bs hchb
    | cons e es =>
      have hch : chainFrom e.index (e :: es) := (contiguous_cons_iff e es).1 hc
      have hl' := lastIndex_of_chainFrom e es hch
      rw [truncateAndAppend_resize e es b bs _ hl'] at h
      by_cases hle : b.index ≤ e.index + es.length
      · rw [if_pos hle] at h
        cases hr : resize (e :: es) (truncSize b.index e.index) with
        | error f => rw [hr] at h; simp [Except.map] at h
        | ok X =>
          rw [hr] at h
          have h' : (Except.ok ⟨X ++ b :: bs⟩ : Except Fault Unstable) = .ok u' := h
          injection h' with h'
          subst h'
          have hlenX := length_of_resize hr
          cases X with
          | nil => exact truncateAndAppend_self b bs hchb
          | cons x X =>
            have hx : x = e := head_of_resize hr
            subst hx
            have hl2 : (Unstable.mk (x :: (X ++ b :: bs))).LastIndex
                = .ok (b.index + bs.length) := lastIndex_append_chain (x :: X) b bs hchb
            show (Unstable.mk (x :: (X ++ b :: bs))).TruncateAndAppend (b :: bs) = _
            rw [truncateAndAppend_resize x (X ++ b :: bs) b bs _ hl2, if_pos (by omega),
              ← hlenX, show x :: (X ++ b :: bs) = (x :: X) ++ b :: bs from rfl,
              resize_append_left]
            rfl
      · rw [if_neg hle] at h
        injection h with h
        subst h
        have hbi : b.index = e.index + es.length + 1 := by
          rcases hadj with h | ⟨b', last, hb', hl, hle'⟩
          · simp at h
          · simp only [List.head?_cons, Option.some.injEq] at hb'
            subst hb'
            rw [hl'] at hl
            injection hl with hl
            omega
        have hl2 : (Unstable.mk (e :: (es ++ b :: bs))).LastIndex
            = .ok (b.index + bs.length) := lastIndex_append_chain (e :: es) b bs hchb
        show (Unstable.mk (e :: (es ++ b :: bs))).TruncateAndAppend (b :: bs) = _
        have hts : truncSize b.index e.index = (e :: es).length := by
          rw [truncSize_of_le b.index e.index hb64 (by omega)
            (by simp only [List.length_cons] at hlen; omega)]
          simp only [List.length_cons]
          omega
        rw [truncateAndAppend_resize e (es ++ b :: bs) b bs _ hl2, if_pos (by omega), hts,
          show e :: (es ++ b :: bs) = (e :: es) ++ b :: bs from rfl, resize_append_left]
        rfl
  · intro f h
    obtain ⟨es⟩ := u
    cases es with
    | nil =>
      have h' : (Except.ok ⟨b :: bs⟩ : Except Fault Unstable) = .error f := h
      simp at h'
    | cons e es =>
      obtain ⟨last, hl⟩ := lastIndex_cons_ok e es
      rw [truncateAndAppend_resize e es b bs _ hl] at h
      by_cases hle : b.index ≤ last
      · rw [if_pos hle] at h
        cases hr : resize (e :: es) (truncSize b.index e.index) with
        | error f' =>
          rw [hr] at h
          have h' : (Except.error f' : Except Fault Unstable) = .error f := h
          injection h' with h'
          rw [← h']
          exact fault_of_resize hr
        | ok X => rw [hr] at h; simp [Except.map] at h
      · rw [if_neg hle] at h
        simp at h

/-- C20, as amended: for 64-bit index values, a non-empty buffer with contiguous
indices and a batch whose first index is at most `LastIndex()` and not more
than `2^63` below `FirstIndex()` (as it is when all indices are below `2^63`),
the size that `TruncateAndAppend` computes is at most the length of the buffer,
so `resize` only removes entries: the call returns the first `newSize` old
entries followed by the batch. -/
theorem truncSize_le_length (u : Unstable) (b : Entry) (first last : Nat)
    (hc : Contiguous u.entries) (hf : u.FirstIndex = .ok first) (hl : u.LastIndex = .ok last)
    (hle : b.index ≤ last) (hb64 : b.index < u64Size) (hf64 : first < u64Size)
    (hgap : first ≤ b.index + 2 ^ 63) :
    truncSize b.index first ≤ u.entries.length ∧
    resize u.entries (truncSize b.index first)
      = .ok (u.entries.take (truncSize b.index first)) ∧
    ∀ bs, u.TruncateAndAppend (b :: bs)
      = .ok ⟨u.entries.take (truncSize b.index first) ++ b :: bs⟩ := by
  obtain ⟨es⟩ := u
  cases es with
  | nil => simp [Unstable.FirstIndex] at hf
  | cons e es =>
    have hch : chainFrom e.index (e :: es) := (contiguous_cons_iff e es).1 hc
    have hl' := lastIndex_of_chainFrom e es hch
    rw [hl'] at hl
    injection hl with hl
    rw [firstIndex_cons] at hf
    injection hf with hf
    subst hf hl
    have hsize : truncSize b.index e.index ≤ (e :: es).length := by
      simp only [List.length_cons]
      by_cases h : e.index ≤ b.index
      · have := truncSize_le_sub b.index e.index hb64 h
        omega
      · rw [truncSize_of_gap b.index e.index hf64 (by omega) hgap]
        omega
    refine ⟨hsize, resize_of_le _ _ hsize, ?_⟩
    intro bs
    rw [truncateAndAppend_resize e es b bs _ hl', if_pos hle, resize_of_le _ _ hsize]
    rfl

/-- C20 fails as stated: for the buffer with the one index `2^64 - 2` and a batch
at index 1 the size is 3, above the length 1, and `resize` inserts
default-constructed entries. -/
theorem truncSize_counterexample :
    Contiguous [pbEntry (2 ^ 64 - 2) 1] ∧
    (Unstable.mk [pbEntry (2 ^ 64 - 2) 1]).FirstIndex = .ok (2 ^ 64 - 2) ∧
    (Unstable.mk [pbEntry (2 ^ 64 - 2) 1]).LastIndex = .ok (2 ^ 64 - 2) ∧
    (pbEntry 1 2).index ≤ 2 ^ 64 - 2 ∧ 2 ^ 64 - 2 < u64Size ∧
    truncSize (pbEntry 1 2).index (2 ^ 64 - 2) = 3 ∧
    ¬ truncSize (pbEntry 1 2).index (2 ^ 64 - 2) ≤ [pbEntry (2 ^ 64 - 2) 1].length ∧
    (Unstable.mk [pbEntry (2 ^ 64 - 2) 1]).TruncateAndAppend [pbEntry 1 2]
      = .ok ⟨[pbEntry (2 ^ 64 - 2) 1, default, default, pbEntry 1 2]⟩ := by
  decide

/-! ### `Entries` -/

theorem chainFrom_drop_eq_filter {f : Nat} {es : EntryVec} (h : chainFrom f es) (n : Nat) :
    es.drop (n - f) = es.filter (fun e => decide (n ≤ e.index)) := by
  induction es generalizing f with
  | nil => simp
  | cons e es ih =>
    obtain ⟨h1, h2⟩ := h
    have ih' := ih h2
    by_cases hn : n ≤ f
    · have h0 : n - f = 0 := by omega
      have h0' : n - (f + 1) = 0 := by omega
      rw [h0'] at ih'
      rw [h0, List.filter_cons_of_pos (by simp; omega), ← ih']
      simp
    · have hs : n - f = (n - (f + 1)) + 1 := by omega
      rw [hs, List.drop_succ_cons, List.filter_cons_of_neg (by simp; omega), ih']

/-- C16, as amended: on a non-empty buffer with contiguous indices, for every
`lo` with `FirstIndex() <= lo <= LastIndex() + 1`, every `hi` and every size
limit, `Entries(lo, hi, maxSize)` returns exactly the entries of the buffer
with `lo <= index`, in order; `hi` and `maxSize` are not read.  The buffer is
only read. -/
theorem entries_from_lo (u : Unstable) (lo hi maxSize first last : Nat)
    (hc : Contiguous u.entries) (hf : u.FirstIndex = .ok first) (hl : u.LastIndex = .ok last)
    (h1 : first ≤ lo) (h2 : lo ≤ last + 1) (hlo : lo < u64Size) :
    u.Entries lo hi maxSize = .ok (u.entries.filter (fun e => decide (lo ≤ e.index))) ∧
    (u.entries.filter (fun e => decide (lo ≤ e.index))).Sublist u.entries := by
  refine ⟨?_, List.filter_sublist _⟩
  obtain ⟨es⟩ := u
  cases es with
  | nil => simp [Unstable.FirstIndex] at hf
  | cons e es =>
    have hch : chainFrom e.index (e :: es) := (contiguous_cons_iff e es).1 hc
    have hl' := lastIndex_of_chainFrom e es hch
    rw [hl'] at hl
    injection hl with hl
    rw [firstIndex_cons] at hf
    injection hf with hf
    subst hf hl
    unfold Unstable.Entries
    simp only [firstIndex_cons]
    have hmax : max lo e.index = lo := by omega
    rw [hmax, subU64_eq lo e.index hlo h1, if_pos (by simp only [List.length_cons]; omega),
      chainFrom_drop_eq_filter hch]

/-- C16 fails as stated: on the buffer with indices 1, 2, 3 the call
`Entries(1, 2, maxSize)` returns all three entries, not the one entry with
`1 <= index < 2`. -/
theorem entries_counterexample :
    Contiguous [pbEntry 1 1, pbEntry 2 1, pbEntry 3 1] ∧
    (Unstable.mk [pbEntry 1 1, pbEntry 2 1, pbEntry 3 1]).FirstIndex = .ok 1 ∧
    (Unstable.mk [pbEntry 1 1, pbEntry 2 1, pbEntry 3 1]).LastIndex = .ok 3 ∧
    (Unstable.mk [pbEntry 1 1, pbEntry 2 1, pbEntry 3 1]).Entries 1 2 (2 ^ 64 - 1)
      = .ok [pbEntry 1 1, pbEntry 2 1, pbEntry 3 1] ∧
    (Unstable.mk [pbEntry 1 1, pbEntry 2 1, pbEntry 3 1]).Entries 1 2 (2 ^ 64 - 1)
      ≠ .ok ([pbEntry 1 1, pbEntry 2 1, pbEntry 3 1].filter
          (fun e => decide (1 ≤ e.index) && decide (e.index < 2))) := by
  decide

/-! ### `StatusWith` -/

/-- C19, as amended: for every `StatusWith<T>` built from a value, or from a
status or an error code that is not OK (with or without a reason), `OK()` is
true if and only if a value is stored, so whenever the assertion in `GetValue`
passes the optional is non-empty and `GetValue` returns the stored value. -/
theorem statusWith_ok_iff_value {T : Type} (sw : StatusWith T)
    (h : StatusWith.BuiltAsDocumented sw) :
    (sw.OK = true ↔ sw.value_.isSome = true) ∧
    (sw.status_.IsOK = true → ∃ v, sw.value_ = some v ∧ sw.GetValue = .ok v) := by
  cases h with
  | value v =>
    refine ⟨⟨fun _ => rfl, fun _ => rfl⟩, fun _ => ⟨v, rfl, rfl⟩⟩
  | status s hs =>
    constructor
    · simp [StatusWith.OK, StatusWith.ofStatus, hs]
    · intro h'
      simp [StatusWith.ofStatus, hs] at h'
  | codeReason code reason hc =>
    have hs : (Status.Make code (some reason)).IsOK = false := by
      simp [Status.IsOK, Status.Make, hc]
    constructor
    · simp [StatusWith.OK, StatusWith.ofCodeReason, StatusWith.ofStatus, hs]
    · intro h'
      simp [StatusWith.ofCodeReason, StatusWith.ofStatus, hs] at h'
  | code code hc =>
    have hs : (Status.Make code none).IsOK = false := by
      simp [Status.IsOK, Status.Make, hc]
    constructor
    · simp [StatusWith.OK, StatusWith.ofCode, StatusWith.ofStatus, hs]
    · intro h'
      simp [StatusWith.ofCode, StatusWith.ofStatus, hs] at h'

/-- C19 fails as stated: `StatusWith<T>(Status::OK())` is built by the
constructor from a status, `OK()` is true and no value is stored; the
assertion in `GetValue` passes and an empty optional is dereferenced. -/
theorem statusWith_counterexample :
    StatusWith.Built (StatusWith.ofStatus Status.OK : StatusWith Nat) ∧
    (StatusWith.ofStatus Status.OK : StatusWith Nat).OK = true ∧
    (StatusWith.ofStatus Status.OK : StatusWith Nat).value_ = none ∧
    (StatusWith.ofStatus Status.OK : StatusWith Nat).GetValue = .error .emptyOptional :=
  ⟨StatusWith.Built.status _, rfl, rfl, rfl⟩

/-! ### Votes, role transitions, heartbeats -/

/-- C11: from every starting role of a node at term `T`, stepping a `MsgVote`
from peer `p` with term `T + 1` and a log that is at least as up to date as the
log of the node places exactly one `MsgVoteResp` with `reject = false` in the
mailbox and leaves the node with role Follower, `currentTerm = T + 1` and
`votedFor = p`; `roleStep`, the per-role handler of the other kinds of message,
is arbitrary. -/
theorem vote_from_any_state (roleStep : Raft → Message → Except Fault Raft) (r : Raft)
    (m : Message) (hty : m.type = .MsgVote) (hterm : m.term = r.currentTerm + 1)
    (hup : r.log.IsUpToDate m.index m.logTerm = .ok true) :
    ∃ r' resp, Raft.Step (Raft.dispatch roleStep) r m = .ok r' ∧
      r'.mails = r.mails ++ [resp] ∧ resp.type = .MsgVoteResp ∧ resp.reject = false ∧
      r'.role = StateRole.kFollower ∧ r'.currentTerm = r.currentTerm + 1 ∧
      r'.votedFor = m.From := by
  have h1 : ¬ m.term = 0 := by omega
  have h2 : r.currentTerm < m.term := by omega
  have h3 : r.currentTerm < r.currentTerm + 1 := by omega
  unfold Raft.Step
  simp only [h1, h2, hty, if_true, if_false, true_or, reduceCtorEq]
  unfold Raft.dispatch
  simp only [hty, true_or, if_true, Raft.becomeFollower, true_and, reduceCtorEq, if_false]
  unfold Raft.handleVote
  simp only [hup, hty, reduceCtorEq, if_false, hterm, h3, if_true, true_or, decide_True,
    Bool.and_self]
  exact ⟨_, _, rfl, rfl, rfl, rfl, rfl, rfl, rfl⟩

/-- C12: `becomeLeader` on a Follower and `becomeCandidate` on a Leader fail;
the other transitions among Follower, Candidate and Leader that
`TestStateTransition` lists succeed: Follower to Follower or Candidate,
Candidate to Follower, Candidate or Leader, Leader to Follower or Leader. -/
theorem role_transition_legality (r : Raft) (term leader : Nat) :
    (r.role = StateRole.kFollower → r.becomeLeader = .error .assertion) ∧
    (r.role = StateRole.kLeader → r.becomeCandidate = .error .assertion) ∧
    (r.becomeFollower term leader).role = StateRole.kFollower ∧
    (r.role = StateRole.kFollower ∨ r.role = StateRole.kCandidate →
      ∃ r', r.becomeCandidate = .ok r' ∧ r'.role = StateRole.kCandidate) ∧
    (r.role = StateRole.kCandidate ∨ r.role = StateRole.kLeader →
      ∃ r', r.becomeLeader = .ok r' ∧ r'.role = StateRole.kLeader) := by
  refine ⟨?_, ?_, rfl, ?_, ?_⟩
  · intro h
    simp [Raft.becomeLeader, h]
  · intro h
    simp [Raft.becomeCandidate, h]
  · intro h
    have hn : ¬ r.role = StateRole.kLeader := by
      rcases h with h | h <;> simp [h]
    unfold Raft.becomeCandidate
    rw [if_neg hn]
    exact ⟨_, rfl, rfl⟩
  · intro h
    rcases h with h | h
    · have hu := truncateAndAppend_of_gt r.log.unstable
        { index := r.log.LastIndex + 1, term := r.currentTerm } [] (by
          intro last hl
          show last < r.log.LastIndex + 1
          simp only [RaftLog.LastIndex, hl]
          omega)
      unfold Raft.becomeLeader
      rw [if_neg (by simp [h]), if_neg (by simp [h])]
      simp only [hu]
      exact ⟨_, rfl, rfl⟩
    · unfold Raft.becomeLeader
      rw [if_neg (by simp [h]), if_pos h]
      exact ⟨_, rfl, h⟩

/-- C13: for a heartbeat carrying a commit index `m` that is at most the last
index, `handleHeartbeat` on a node whose commit index is `c` returns with the
commit index `max(c, m)`; with `m < c` it stays at `c`, so the commit index
never decreases. -/
theorem handleHeartbeat_commit (r : Raft) (m : Message) (hm : m.commit ≤ r.log.LastIndex) :
    ∃ r', r.handleHeartbeat m = .ok r' ∧
      r'.log.CommitIndex = max r.log.CommitIndex m.commit ∧
      (m.commit < r.log.CommitIndex → r'.log.CommitIndex = r.log.CommitIndex) ∧
      r.log.CommitIndex ≤ r'.log.CommitIndex := by
  have hmin : min m.commit r.log.LastIndex = m.commit := by omega
  unfold Raft.handleHeartbeat RaftLog.CommitTo
  rw [hmin]
  by_cases h : r.log.committed < m.commit
  · simp only [h, hm, if_true]
    refine ⟨_, rfl, ?_, ?_, ?_⟩
    · show m.commit = max r.log.committed m.commit
      omega
    · intro h'
      have : m.commit < r.log.committed := h'
      omega
    · show r.log.committed ≤ m.commit
      omega
  · simp only [h, if_false]
    refine ⟨_, rfl, ?_, ?_, ?_⟩
    · show r.log.committed = max r.log.committed m.commit
      omega
    · intro _; rfl
    · exact le_refl _

/-- C14, as amended: in the cluster of five with match indices 3, 3, 2, 2, 1,
the leader at term 2, commit at 0 and the entry at index 3 having term 2, the
quorum index is 2, since only two of the five peers hold index 3, and
`advanceCommitIndex` advances the commit index to 2 when the entry at index 2
has term 2 and leaves it at 0 otherwise, whatever the term of the entry at
index 1. -/
theorem commit3of5_commits_two (t1 t2 : Nat) :
    (commit3of5Raft t1 t2).quorumIndex = .ok 2 ∧
    (commit3of5Raft t1 t2).replicatedOn 3 = 2 ∧
    (commit3of5Raft t1 t2).advanceCommitIndex.map (fun r => r.log.CommitIndex)
      = .ok (if t2 = 2 then 2 else 0) := by
  have hprs : (commit3of5Raft t1 t2).prs = (commit3of5Raft 0 0).prs := rfl
  have hq : (commit3of5Raft t1 t2).quorumIndex = .ok 2 := by
    unfold Raft.quorumIndex Raft.sortedMatches
    rw [hprs]
    decide
  have hrep : (commit3of5Raft t1 t2).replicatedOn 3 = 2 := by
    unfold Raft.replicatedOn
    rw [hprs]
    decide
  refine ⟨hq, hrep, ?_⟩
  have ht : (commit3of5Raft t1 t2).log.Term 2 = .ok (.ok t2) := rfl
  have hc : (commit3of5Raft t1 t2).log.committed = 0 := rfl
  have hterm : (commit3of5Raft t1 t2).currentTerm = 2 := rfl
  have hlast : (commit3of5Raft t1 t2).log.LastIndex = 3 := rfl
  unfold Raft.advanceCommitIndex
  simp only [hq, hc, ht, hterm, Nat.lt_add_one, Nat.ofNat_pos, if_true, Except.ok.injEq]
  by_cases h : t2 = 2
  · simp only [h, if_true, RaftLog.CommitTo, hc, hlast, Nat.ofNat_pos]
    rfl
  · simp only [h, if_false]
    rfl

/-- C14 fails as stated: with the log `(1,1), (2,2), (3,2)` the scenario ends
with the commit index 2, not 3. -/
theorem commit3of5_counterexample :
    (commit3of5Raft 1 2).currentTerm = 2 ∧ (commit3of5Raft 1 2).log.CommitIndex = 0 ∧
    (commit3of5Raft 1 2).log.Term 3 = .ok (.ok 2) ∧
    (commit3of5Raft 1 2).prs.map (fun p => p.2.matchIndex) = [3, 3, 2, 2, 1] ∧
    (commit3of5Raft 1 2).advanceCommitIndex.map (fun r => r.log.CommitIndex) = .ok 2 ∧
    (commit3of5Raft 1 2).advanceCommitIndex.map (fun r => r.log.CommitIndex) ≠ .ok 3 := by
  decide

/-! ## Witnesses -/

theorem truncateAndAppend_truncates_witness :
    (Unstable.mk [pbEntry 4 1, pbEntry 5 1, pbEntry 6 2]).entries ≠ [] ∧
    Contiguous [pbEntry 4 1, pbEntry 5 1, pbEntry 6 2] ∧
    (pbEntry 5 3).index ≤ 6 ∧
    (Unstable.mk [pbEntry 4 1, pbEntry 5 1, pbEntry 6 2]).TruncateAndAppend
        [pbEntry 5 3, pbEntry 6 3]
      = .ok ⟨[pbEntry 4 1, pbEntry 5 3, pbEntry 6 3]⟩ :=
  ⟨by decide, by decide, by decide,
    (truncateAndAppend_truncates ⟨[pbEntry 4 1, pbEntry 5 1, pbEntry 6 2]⟩
      [pbEntry 5 3, pbEntry 6 3] (pbEntry 5 3) 6 (by decide) (by decide) rfl rfl
      (by decide) (by decide) (by decide)).1⟩

theorem maybeTerm_spec_witness :
    Contiguous [pbEntry 4 1, pbEntry 5 1, pbEntry 6 2] ∧ 5 < u64Size ∧
    (Unstable.mk [pbEntry 4 1, pbEntry 5 1, pbEntry 6 2]).MaybeTerm 5 = .ok (some 1) ∧
    (Unstable.mk [pbEntry 4 1, pbEntry 5 1, pbEntry 6 2]).MaybeTerm 7 = .ok none := by
  have h := maybeTerm_spec ⟨[pbEntry 4 1, pbEntry 5 1, pbEntry 6 2]⟩
  refine ⟨by decide, by decide, ?_, ?_⟩
  · obtain ⟨_, e, he, _, _, hm⟩ := ((h 5 (by decide) (by decide)).2 4 6 rfl rfl).1
      ⟨by decide, by decide⟩
    have he' : e = pbEntry 5 1 := by
      have : some (pbEntry 5 1) = some e := he
      injection this with this
      exact this.symm
    rw [hm, he']
    rfl
  · exact ((h 7 (by decide) (by decide)).2 4 6 rfl rfl).2 (by decide)

theorem reachableAdjacent_contiguous_witness :
    ReachableAdjacent ⟨[pbEntry 1 1, pbEntry 2 2, pbEntry 3 2]⟩ ∧
    Contiguous [pbEntry 1 1, pbEntry 2 2, pbEntry 3 2] ∧
    (Unstable.mk [pbEntry 1 1, pbEntry 2 2, pbEntry 3 2]).LastIndex = .ok (1 + 3 - 1) := by
  have h1 : ReachableAdjacent ⟨[pbEntry 1 1, pbEntry 2 1]⟩ :=
    ReachableAdjacent.append [pbEntry 1 1, pbEntry 2 1] ReachableAdjacent.empty
      (by decide) (by decide) (by decide) (Or.inl rfl) (by decide)
  have h2 : ReachableAdjacent ⟨[pbEntry 1 1, pbEntry 2 2, pbEntry 3 2]⟩ :=
    ReachableAdjacent.append [pbEntry 2 2, pbEntry 3 2] h1
      (by decide) (by decide) (by decide) (Or.inr ⟨pbEntry 2 2, 2, rfl, rfl, by decide⟩)
      (by decide)
  have h := reachableAdjacent_contiguous _ h2
  exact ⟨h2, h.1, (h.2.1 1 rfl).2⟩

theorem truncateAndAppend_below_offset_witness :
    Contiguous [pbEntry 5 1, pbEntry 6 1] ∧
    (Unstable.mk [pbEntry 5 1, pbEntry 6 1]).FirstIndex = .ok 5 ∧
    (pbEntry 3 2).index < 5 ∧
    (Unstable.mk [pbEntry 5 1, pbEntry 6 1]).TruncateAndAppend [pbEntry 3 2, pbEntry 4 2]
      = .ok ⟨[pbEntry 3 2, pbEntry 4 2]⟩ ∧
    (Unstable.mk [pbEntry 3 2, pbEntry 4 2]).FirstIndex = .ok 3 :=
  ⟨by decide, rfl, by decide,
    truncateAndAppend_below_offset ⟨[pbEntry 5 1, pbEntry 6 1]⟩ [pbEntry 3 2, pbEntry 4 2]
      (pbEntry 3 2) 5 rfl (by decide) rfl (by decide) (by decide) (by decide)⟩

theorem quorumIndex_greatest_witness :
    1 ≤ (commitTestRaft [2, 1, 2] [pbEntry 1 1, pbEntry 2 2] 2).prs.length ∧
    ∃ mci, (commitTestRaft [2, 1, 2] [pbEntry 1 1, pbEntry 2 2] 2).quorumIndex = .ok mci ∧
      (commitTestRaft [2, 1, 2] [pbEntry 1 1, pbEntry 2 2] 2).sortedMatches.get? (3 / 2)
        = some mci ∧
      3 / 2 + 1 ≤ (commitTestRaft [2, 1, 2] [pbEntry 1 1, pbEntry 2 2] 2).replicatedOn mci ∧
      ∀ i, 3 / 2 + 1 ≤ (commitTestRaft [2, 1, 2] [pbEntry 1 1, pbEntry 2 2] 2).replicatedOn i →
        i ≤ mci :=
  ⟨by decide,
    quorumIndex_greatest (commitTestRaft [2, 1, 2] [pbEntry 1 1, pbEntry 2 2] 2) (by decide)⟩

theorem advanceCommitIndex_term_guard_witness :
    1 ≤ (commitTestRaft [2, 1, 2] [pbEntry 1 1, pbEntry 2 2] 2).prs.length ∧
    (commitTestRaft [2, 1, 2] [pbEntry 1 1, pbEntry 2 2] 2).log.WellFormed ∧
    ∃ r', (commitTestRaft [2, 1, 2] [pbEntry 1 1, pbEntry 2 2] 2).advanceCommitIndex = .ok r' ∧
      r'.log.CommitIndex = 2 := by
  refine ⟨by decide, by decide, ?_⟩
  obtain ⟨mci, hq, hyes, _, _, _, _⟩ :=
    advanceCommitIndex_term_guard (commitTestRaft [2, 1, 2] [pbEntry 1 1, pbEntry 2 2] 2)
      (by decide) (by decide)
  have hm : mci = 2 := by
    have : (Except.ok 2 : Except Fault Nat) = .ok mci := hq
    injection this with this
    exact this.symm
  subst hm
  exact ⟨_, hyes ⟨by decide, by decide⟩, rfl⟩

theorem handleAppendEntries_rejects_witness :
    msgAppTestRaft.log.committed ≤ 3 ∧
    msgAppTestRaft.log.MatchTerm 3 2 = .ok false ∧
    ∃ r' resp, msgAppTestRaft.handleAppendEntries
        { type := .MsgApp, term := 2, logTerm := 2, index := 3, commit := 3 } = .ok r' ∧
      r'.mails = [resp] ∧ resp.reject = true ∧
      r'.log.LastIndex = 2 ∧ r'.log.CommitIndex = 0 :=
  ⟨by decide, by decide,
    handleAppendEntries_rejects msgAppTestRaft
      { type := .MsgApp, term := 2, logTerm := 2, index := 3, commit := 3 }
      (by decide) (Or.inl (by decide))⟩

theorem handleAppendEntries_commits_witness :
    msgAppTestRaft.log.committed ≤ 1 ∧
    msgAppTestRaft.log.MatchTerm 1 1 = .ok true ∧
    Contiguous msgAppTestRaft.log.unstable.entries ∧
    IndicesBelow63 msgAppTestRaft.log.unstable.entries ∧
    FollowsPrev 1 [pbEntry 2 3] ∧
    ∃ r' resp, msgAppTestRaft.handleAppendEntries
        { type := .MsgApp, term := 2, logTerm := 1, index := 1, commit := 3,
          entries := [pbEntry 2 3] } = .ok r' ∧
      r'.log.CommitIndex = 2 ∧ r'.mails = [resp] ∧ resp.reject = false :=
  ⟨by decide, by decide, by decide, by decide, by decide,
    handleAppendEntries_commits msgAppTestRaft
      { type := .MsgApp, term := 2, logTerm := 1, index := 1, commit := 3,
        entries := [pbEntry 2 3] }
      (by decide) (by decide) (by decide) (by decide) (by decide)⟩

theorem step_ignores_old_term_witness :
    ∃ r', Raft.Step (fun _ _ => .error .assertion) { currentTerm := 2 }
        { type := .MsgApp, term := 1 } = .ok r' ∧
      r'.role = StateRole.kFollower ∧ r'.currentTerm = 2 ∧ r'.log = {} ∧
      ∀ step', Raft.Step step' { currentTerm := 2 } { type := .MsgApp, term := 1 } = .ok r' :=
  step_ignores_old_term (fun _ _ => .error .assertion) { currentTerm := 2 }
    { type := .MsgApp, term := 1 } (by decide) (by decide)

theorem vote_from_any_state_witness :
    ({ type := .MsgVote, From := 2, To := 1, term := 2, logTerm := 2, index := 4 } : Message).term
      = (voteWitnessRaft).currentTerm + 1 ∧
    voteWitnessRaft.log.IsUpToDate 4 2 = .ok true ∧
    ∃ r' resp,
      Raft.Step (Raft.dispatch (fun _ _ => .error .assertion)) voteWitnessRaft
        { type := .MsgVote, From := 2, To := 1, term := 2, logTerm := 2, index := 4 } = .ok r' ∧
      r'.mails = [resp] ∧ resp.type = .MsgVoteResp ∧ resp.reject = false ∧
      r'.role = StateRole.kFollower ∧ r'.currentTerm = 2 ∧ r'.votedFor = 2 :=
  ⟨by decide, by decide,
    vote_from_any_state (fun _ _ => .error .assertion) voteWitnessRaft
      { type := .MsgVote, From := 2, To := 1, term := 2, logTerm := 2, index := 4 }
      rfl (by decide) (by decide)⟩

theorem role_transition_legality_witness :
    (newTestRaft 1 [1] 10 1 {}).role = StateRole.kFollower ∧
    (newTestRaft 1 [1] 10 1 {}).becomeLeader = .error .assertion ∧
    ∃ r', (newTestRaft 1 [1] 10 1 {}).becomeCandidate = .ok r' ∧
      r'.role = StateRole.kCandidate :=
  ⟨rfl, (role_transition_legality (newTestRaft 1 [1] 10 1 {}) 1 0).1 rfl,
    (role_transition_legality (newTestRaft 1 [1] 10 1 {}) 1 0).2.2.2.1 (Or.inl rfl)⟩

theorem handleHeartbeat_commit_witness :
    (1 : Nat) ≤ heartbeatWitnessRaft.log.LastIndex ∧
    ∃ r', heartbeatWitnessRaft.handleHeartbeat
          { type := .MsgHeartbeat, From := 2, To := 1, term := 2, commit := 1 } = .ok r' ∧
      r'.log.CommitIndex = 2 := by
  refine ⟨by decide, ?_⟩
  obtain ⟨r', h1, h2, _, _⟩ := handleHeartbeat_commit heartbeatWitnessRaft
    { type := .MsgHeartbeat, From := 2, To := 1, term := 2, commit := 1 } (by decide)
  exact ⟨r', h1, h2⟩

theorem truncateAndAppend_keeps_contiguous_witness :
    Contiguous [pbEntry 1 1, pbEntry 2 1] ∧ Contiguous [pbEntry 2 2, pbEntry 3 2] ∧
    Adjacent ⟨[pbEntry 1 1, pbEntry 2 1]⟩ [pbEntry 2 2, pbEntry 3 2] ∧
    ∃ u', (Unstable.mk [pbEntry 1 1, pbEntry 2 1]).TruncateAndAppend [pbEntry 2 2, pbEntry 3 2]
        = .ok u' ∧
      Contiguous u'.entries ∧ u'.LastIndex = .ok 3 ∧ u'.FirstIndex = .ok 1 := by
  have hadj : Adjacent ⟨[pbEntry 1 1, pbEntry 2 1]⟩ [pbEntry 2 2, pbEntry 3 2] :=
    Or.inr ⟨pbEntry 2 2, 2, rfl, rfl, by decide⟩
  obtain ⟨u', h1, h2, h3, _, h5⟩ := truncateAndAppend_keeps_contiguous
    ⟨[pbEntry 1 1, pbEntry 2 1]⟩ (pbEntry 2 2) [pbEntry 3 2]
    (by decide) (by decide) hadj (by decide) (by decide)
  exact ⟨by decide, by decide, hadj, u', h1, h2, h3, h5 1 rfl⟩

theorem entries_from_lo_witness :
    Contiguous [pbEntry 1 1, pbEntry 2 1, pbEntry 3 1] ∧
    (Unstable.mk [pbEntry 1 1, pbEntry 2 1, pbEntry 3 1]).Entries 2 3 (2 ^ 64 - 1)
      = .ok [pbEntry 2 1, pbEntry 3 1] :=
  ⟨by decide,
    (entries_from_lo ⟨[pbEntry 1 1, pbEntry 2 1, pbEntry 3 1]⟩ 2 3 (2 ^ 64 - 1) 1 3
      (by decide) rfl rfl (by decide) (by decide) (by decide)).1⟩

theorem truncateAndAppend_read_back_witness :
    Contiguous [pbEntry 1 1, pbEntry 2 1] ∧ Contiguous [pbEntry 2 2, pbEntry 3 2] ∧
    Adjacent ⟨[pbEntry 1 1, pbEntry 2 1]⟩ [pbEntry 2 2, pbEntry 3 2] ∧
    ∃ u', (Unstable.mk [pbEntry 1 1, pbEntry 2 1]).TruncateAndAppend [pbEntry 2 2, pbEntry 3 2]
        = .ok u' ∧
      u'.MaybeTerm 2 = .ok (some 2) ∧ u'.MaybeTerm 3 = .ok (some 2) ∧
      u'.MaybeTerm 1 = .ok (some 1) := by
  have hadj : Adjacent ⟨[pbEntry 1 1, pbEntry 2 1]⟩ [pbEntry 2 2, pbEntry 3 2] :=
    Or.inr ⟨pbEntry 2 2, 2, rfl, rfl, by decide⟩
  obtain ⟨u', h1, h2, h3⟩ := truncateAndAppend_read_back
    ⟨[pbEntry 1 1, pbEntry 2 1]⟩ (pbEntry 2 2) [pbEntry 3 2]
    (by decide) (by decide) hadj (by decide) (by decide)
  refine ⟨by decide, by decide, hadj, u', h1, h2 (pbEntry 2 2) (by simp),
    h2 (pbEntry 3 2) (by simp), ?_⟩
  rw [h3 1 (by decide)]
  decide

theorem truncateAndAppend_idempotent_witness :
    Contiguous [pbEntry 1 1, pbEntry 2 1] ∧ Contiguous [pbEntry 2 2, pbEntry 3 2] ∧
    Adjacent ⟨[pbEntry 1 1, pbEntry 2 1]⟩ [pbEntry 2 2, pbEntry 3 2] ∧
    (Unstable.mk [pbEntry 1 1, pbEntry 2 1]).TruncateAndAppend [pbEntry 2 2, pbEntry 3 2]
      = .ok ⟨[pbEntry 1 1, pbEntry 2 2, pbEntry 3 2]⟩ ∧
    (Unstable.mk [pbEntry 1 1, pbEntry 2 2, pbEntry 3 2]).TruncateAndAppend
        [pbEntry 2 2, pbEntry 3 2]
      = .ok ⟨[pbEntry 1 1, pbEntry 2 2, pbEntry 3 2]⟩ :=
  ⟨by decide, by decide, Or.inr ⟨pbEntry 2 2, 2, rfl, rfl, by decide⟩, by decide,
    (truncateAndAppend_idempotent ⟨[pbEntry 1 1, pbEntry 2 1]⟩ (pbEntry 2 2) [pbEntry 3 2]
      (by decide) (by decide) (Or.inr ⟨pbEntry 2 2, 2, rfl, rfl, by decide⟩)
      (by decide) (by decide)).1 _ (by decide)⟩

theorem statusWith_ok_iff_value_witness :
    StatusWith.BuiltAsDocumented (StatusWith.ofValue 5 : StatusWith Nat) ∧
    StatusWith.BuiltAsDocumented (StatusWith.ofCode ErrorCodes.LogCompacted : StatusWith Nat) ∧
    ((StatusWith.ofValue 5 : StatusWith Nat).OK = true ↔
      (StatusWith.ofValue 5 : StatusWith Nat).value_.isSome = true) ∧
    ((StatusWith.ofCode ErrorCodes.LogCompacted : StatusWith Nat).OK = true ↔
      (StatusWith.ofCode ErrorCodes.LogCompacted : StatusWith Nat).value_.isSome = true) :=
  ⟨StatusWith.BuiltAsDocumented.value 5,
    StatusWith.BuiltAsDocumented.code _ (by decide),
    (statusWith_ok_iff_value _ (StatusWith.BuiltAsDocumented.value 5)).1,
    (statusWith_ok_iff_value _ (StatusWith.BuiltAsDocumented.code _ (by decide))).1⟩

theorem truncSize_le_length_witness :
    Contiguous [pbEntry 4 1, pbEntry 5 1, pbEntry 6 2] ∧
    (pbEntry 5 3).index ≤ 6 ∧ 4 ≤ (pbEntry 5 3).index + 2 ^ 63 ∧
    truncSize (pbEntry 5 3).index 4 ≤ [pbEntry 4 1, pbEntry 5 1, pbEntry 6 2].length ∧
    (Unstable.mk [pbEntry 4 1, pbEntry 5 1, pbEntry 6 2]).TruncateAndAppend [pbEntry 5 3]
      = .ok ⟨[pbEntry 4 1, pbEntry 5 3]⟩ := by
  have h := truncSize_le_length ⟨[pbEntry 4 1, pbEntry 5 1, pbEntry 6 2]⟩ (pbEntry 5 3) 4 6
    (by decide) rfl rfl (by decide) (by decide) (by decide) (by decide)
  refine ⟨by decide, by decide, by decide, h.1, ?_⟩
  rw [h.2.2 []]
  decide

end yaraft
